import Mathlib

/-!
Verification of the XBRL presentation-linkbase parser of `edgar/xbrl/presentation.py`.

The embedding models the Python module shallowly:

* Python objects of class `PresentationElement` are identified by a `NodeRef`
  (a locator label for elements created from `loc` entries, or the role URI for
  the synthetic role root).  The object heap is a `Store`, an insertion-ordered
  association list from `NodeRef` to the record of the object's current fields,
  mirroring the `OrderedDict` `locs` of `XBRLPresentation.parse` plus the role
  roots.  Mutation of a field becomes an in-place update of the binding, so the
  aliasing of the source (several `children` lists holding references to the
  same object) is represented exactly.
* `children` lists hold `NodeRef`s, as the Python lists hold object references.
* The `order` attribute is kept as the raw attribute string (the source stores
  `float(...)` of it; no analysed behaviour inspects the numeric value).
* The XML layer (BeautifulSoup) is external to the module's algorithmics: a
  document is modelled as the list of its `presentationLink` blocks, each with
  its role attribute and its already-extracted `loc` / `presentationArc`
  attribute tuples, after the prefixed/bare attribute fallback chain.  Missing
  and empty string attributes are both modelled as `""` for `loc` attributes
  (both are falsy in the source's `if not label or not href` check), and a
  missing `preferredLabel` as `none` (the source's `None`).
* `re.sub(r'_\d+$', '', concept)` is modelled over the characters of the
  string with ASCII digits, which is exact for the ASCII identifiers the
  module processes.
* The recursive traversals of the source (`_index_concepts`,
  `find_line_items`, `find_axes`) are modelled with an explicit fuel bound;
  the fuel chosen at each call site exceeds the depth of every store reachable
  in the analysed scenarios.
-/

namespace EdgarXBRL

/-! ## String helpers mirroring the Python string operations -/

/-- `s.lower()` for the ASCII identifiers handled by the module. -/
def lowerStr (s : String) : String :=
  String.mk (s.data.map Char.toLower)

/-- `s.startswith(p)`. -/
def strStartsWith (s p : String) : Bool :=
  p.data.isPrefixOf s.data

/-- `s.endswith(p)`. -/
def strEndsWith (s p : String) : Bool :=
  p.data.reverse.isPrefixOf s.data.reverse

/-- Python's `sub in s` substring containment test. -/
def strContains (s sub : String) : Bool :=
  (List.range (s.data.length + 1)).any (fun i => sub.data.isPrefixOf (s.data.drop i))

/-- Python's `'_' in s` character membership test. -/
def containsUnderscore (s : String) : Bool :=
  s.data.any (fun ch => ch = '_')

/-- `s.split(c)[-1]`: the part of `s` after the last occurrence of `c`
(the whole string when `c` does not occur). -/
def lastSegAfter (c : Char) (s : String) : String :=
  String.mk ((s.data.reverse.takeWhile (fun x => !(x = c))).reverse)

/-- `s.split(c)[0]`: the part of `s` before the first occurrence of `c`. -/
def firstSegBefore (c : Char) (s : String) : String :=
  String.mk (s.data.takeWhile (fun x => !(x = c)))

/-! ## Concept normalization (`normalize_concept`, presentation.py lines 101-102) -/

/-- Whether `s` ends with the disambiguation pattern `_\d+$`: one underscore
followed by one or more trailing digits. -/
def hasNumSuffix (s : String) : Bool :=
  let r := s.data.reverse
  let ds := r.takeWhile Char.isDigit
  !ds.isEmpty && ((r.drop ds.length).head? = some '_')

/-- `normalize_concept(concept)`, i.e. `re.sub(r'_\d+$', '', concept)`:
strip one trailing group of an underscore followed by digits, if present. -/
def normalize_concept (concept : String) : String :=
  if hasNumSuffix concept then
    let r := concept.data.reverse
    let ds := r.takeWhile Char.isDigit
    String.mk ((r.drop (ds.length + 1)).reverse)
  else concept

/-! ## Node classification (`PresentationElement.node_type`, lines 32-76) -/

/-- `PresentationElement.node_type`, as a function of the element's
`concept` string (the property reads no other state). -/
def node_type (concept : String) : String :=
  let cl := lowerStr concept
  if strStartsWith concept "http://" && strContains cl "role" then "Statement"
  else if strEndsWith concept "Table" || strContains cl "statementtable" then "Table"
  else if strEndsWith concept "LineItems" || strContains cl "statementlineitems"
      || strContains cl "schedulelineitems" then "LineItems"
  else if strEndsWith concept "Axis" || strContains cl "[axis]" then "Axis"
  else if strEndsWith concept "Member" || strContains cl "[member]" then "Member"
  else if strEndsWith concept "Domain" || strContains cl "[domain]" then "Domain"
  else if strEndsWith concept "Abstract" || strContains cl "[abstract]"
      || strContains cl "abstract" then "Abstract"
  else "LineItem"

/-! ## Object heap: references, element records, stores -/

/-- Identity of a `PresentationElement` object: either the element created for
a locator label (the key of the `locs` `OrderedDict`), or the synthetic root
element created for a role URI. -/
inductive NodeRef where
  | loc (label : String)
  | root (role : String)
deriving DecidableEq, Repr

/-- The fields of a `PresentationElement` object (presentation.py lines 22-30).
`order` keeps the raw attribute string. -/
structure PElem where
  label : String
  href : String
  order : String
  concept : String
  level : Nat
  children : List NodeRef
  preferred_label : Option String
  parent : Option NodeRef
deriving DecidableEq, Repr

/-- The default record returned when dereferencing an absent key; reachable
stores never contain dangling references. -/
def defaultPE : PElem :=
  { label := "", href := "", order := "0", concept := "", level := 0,
    children := [], preferred_label := none, parent := none }

/-- `PresentationElement.__init__`: `concept` falls back to `label` when the
supplied concept is falsy (`None` or `""`). -/
def mkPE (label href order : String) (concept : Option String)
    (preferred_label : Option String) : PElem :=
  { label := label, href := href, order := order,
    concept := match concept with
      | some c => if c = "" then label else c
      | none => label,
    level := 0, children := [], preferred_label := preferred_label, parent := none }

/-- Insertion-ordered association list, the model of Python `dict` /
`OrderedDict` / `defaultdict` contents. -/
abbrev AList (α β : Type) := List (α × β)

namespace AList

variable {α β : Type} [DecidableEq α]

/-- First-match lookup (`d[k]` read / `k in d`). -/
def get? : AList α β → α → Option β
  | [], _ => none
  | (k, v) :: rest, a => if k = a then some v else get? rest a

/-- `d[k] = v`: replace the binding in place if the key is present, else
append it, as Python dict assignment does. -/
def set : AList α β → α → β → AList α β
  | [], a, b => [(a, b)]
  | (k, v) :: rest, a, b => if k = a then (a, b) :: rest else (k, v) :: set rest a b

end AList

/-- The object heap. -/
abbrev Store := AList NodeRef PElem

/-- Lookup of an object by reference. -/
def Store.get? (s : Store) (r : NodeRef) : Option PElem := AList.get? s r

/-- Dereference with the (unreachable) default record. -/
def getE (s : Store) (r : NodeRef) : PElem := (s.get? r).getD defaultPE

/-- In-place mutation of the object bound to `r` (a no-op when absent, as the
source only ever mutates existing objects). -/
def upd (s : Store) (r : NodeRef) (f : PElem → PElem) : Store :=
  s.map (fun p => if p.1 = r then (p.1, f p.2) else p)

/-- Binding insertion (dict assignment into `locs` or `roles`). -/
def Store.set (s : Store) (r : NodeRef) (e : PElem) : Store := AList.set s r e

/-! ## Parsed document fragments -/

/-- A `loc` element's extracted attributes; `""` models both a missing and an
empty attribute (both falsy in the source's skip check). -/
structure Loc where
  label : String
  href : String
deriving DecidableEq, Repr

/-- A `presentationArc` element's extracted attributes
(`xlink:from`, `xlink:to`, `order`, `preferredLabel`). -/
structure Arc where
  fromLabel : String
  toLabel : String
  orderAttr : String
  preferredLabel : Option String
deriving DecidableEq, Repr

/-- A `presentationLink` block: its role attribute and contents. -/
structure PLink where
  role : String
  locs : List Loc
  arcs : List Arc
deriving DecidableEq, Repr

/-- Python truthiness of an optional string (`if child.preferred_label:`). -/
def truthyOpt : Option String → Bool
  | none => false
  | some s => !(s = "")

/-! ## Hierarchy construction (`XBRLPresentation.parse`, lines 96-179) -/

/-- Lines 109-118: build the `locs` mapping, skipping entries with a falsy
label or href; `concept` is the normalized fragment of the href. -/
def buildLocs (locs : List Loc) : Store :=
  locs.foldl (fun s l =>
    if l.label = "" || l.href = "" then s
    else s.set (.loc l.label)
      (mkPE l.label l.href "0" (some (normalize_concept (lastSegAfter '#' l.href))) none)) []

/-- Lines 129-140: legacy-format fallback synthesizing an element for every
label referenced by an arc, with the label as concept source. -/
def legacyLocs (arcs : List Arc) : Store :=
  arcs.foldl (fun s a =>
    let s := if (s.get? (.loc a.fromLabel)).isSome then s
      else s.set (.loc a.fromLabel)
        (mkPE a.fromLabel "" "0" (some (normalize_concept a.fromLabel)) none)
    if (s.get? (.loc a.toLabel)).isSome then s
    else s.set (.loc a.toLabel)
      (mkPE a.toLabel "" "0" (some (normalize_concept a.toLabel)) none)) []

/-- The initial store for a role: parsed locators, or the legacy synthesis
when no locator was kept (`if not locs:`). -/
def initStore (locs : List Loc) (arcs : List Arc) : Store :=
  let s := buildLocs locs
  if s.isEmpty then legacyLocs arcs else s

/-- Lines 143-163: process one arc.  When both endpoints resolve, the child's
`order`, `level` and `preferred_label` are written, then either an existing
child of the parent with the same normalized concept is merged with the new
child (children extended, longer label, shorter concept, truthy preferred
label overwrites), or the child is appended and its `parent` set. -/
def processArc (s : Store) (a : Arc) : Store :=
  match s.get? (.loc a.fromLabel), s.get? (.loc a.toLabel) with
  | some parentE, some _ =>
    let s1 := upd s (.loc a.toLabel) (fun c =>
      { c with order := a.orderAttr, level := parentE.level + 1,
               preferred_label := a.preferredLabel })
    let pch := (getE s1 (.loc a.fromLabel)).children
    let cnorm := normalize_concept ((getE s1 (.loc a.toLabel)).concept)
    match pch.find? (fun r => normalize_concept ((getE s1 r).concept) = cnorm) with
    | some e =>
      let s2 := upd s1 e (fun ex =>
        { ex with children := ex.children ++ (getE s1 (.loc a.toLabel)).children })
      let s3 := upd s2 e (fun ex =>
        if ex.label.length < ((getE s2 (.loc a.toLabel)).label).length
        then { ex with label := (getE s2 (.loc a.toLabel)).label } else ex)
      let s4 := upd s3 e (fun ex =>
        if ((getE s3 (.loc a.toLabel)).concept).length < ex.concept.length
        then { ex with concept := (getE s3 (.loc a.toLabel)).concept } else ex)
      if truthyOpt ((getE s4 (.loc a.toLabel)).preferred_label)
      then upd s4 e (fun ex =>
        { ex with preferred_label := (getE s4 (.loc a.toLabel)).preferred_label })
      else s4
    | none =>
      let s2 := upd s1 (.loc a.fromLabel) (fun p =>
        { p with children := p.children ++ [NodeRef.loc a.toLabel] })
      upd s2 (.loc a.toLabel) (fun c => { c with parent := some (NodeRef.loc a.fromLabel) })
  | _, _ => s

/-- The store transformation of the merge branch (lines 153-160), named for
the statement of `processArc_merge`: the arc child at `toRef` gets its
attributes written, then the existing child `e` is extended with `ce`'s
children, takes the longer label, the shorter concept, and a truthy
preferred label. -/
def mergeInto (s : Store) (toRef : NodeRef) (o : String) (lv : Nat)
    (pl : Option String) (e : NodeRef) (ce : PElem) : Store :=
  let s1 := upd s toRef (fun c =>
    { c with order := o, level := lv, preferred_label := pl })
  let s2 := upd s1 e (fun ex => { ex with children := ex.children ++ ce.children })
  let s3 := upd s2 e (fun ex =>
    if ex.label.length < ce.label.length then { ex with label := ce.label } else ex)
  let s4 := upd s3 e (fun ex =>
    if ce.concept.length < ex.concept.length then { ex with concept := ce.concept } else ex)
  if truthyOpt pl then upd s4 e (fun ex => { ex with preferred_label := pl }) else s4

/-- Line 166: locators whose current `label` field is no arc's `to` label. -/
def roleChildrenOf (s : Store) (arcs : List Arc) : List NodeRef :=
  s.filterMap (fun p => if arcs.any (fun a => a.toLabel = p.2.label) then none else some p.1)

/-- Lines 104-173 for one `presentationLink` block: the fully built store for
the role (locators plus the synthetic role root), or `none` when the block
yields no top-level element and the role is dropped. -/
def parseRole (role : String) (locs : List Loc) (arcs : List Arc) : Option Store :=
  let s1 := arcs.foldl processArc (initStore locs arcs)
  let rc := roleChildrenOf s1 arcs
  if rc.isEmpty then none
  else
    let s2 := rc.foldl (fun s r => upd s r (fun e => { e with parent := some (NodeRef.root role) })) s1
    some (s2.set (.root role)
      { mkPE role "" "0" (some (normalize_concept role)) none with
          children := rc })

/-! ## Statement mapping (`FinancialStatementMapper`, lines 386-471) -/

/-- The fixed `STANDARD_STATEMENTS` table, in source order. -/
def standardStatements : AList String (List String) := [
  ("BALANCE_SHEET", [
    "CONSOLIDATEDBALANCESHEETS", "CONSOLIDATEDBALANCESHEET",
    "COMPREHENSIVEBALANCESHEETS", "COMPREHENSIVEBALANCESHEET",
    "BALANCESHEET", "BALANCESHEETS",
    "STATEMENTOFFINANCIALPOSITION", "STATEMENTSOFFINANCIALPOSITION",
    "CONSOLIDATEDSTATEMENTOFFINANCIALPOSITION",
    "CONSOLIDATEDSTATEMENTSOFFINANCIALPOSITION"]),
  ("INCOME_STATEMENT", [
    "CONSOLIDATEDSTATEMENTSOFOPERATIONS", "CONSOLIDATEDSTATEMENTOFOPERATIONS",
    "STATEMENTSOFOPERATIONS", "STATEMENTOFOPERATIONS",
    "INCOMESTATEMENT", "INCOMESTATEMENTS",
    "CONSOLIDATEDINCOMESTATEMENT", "CONSOLIDATEDINCOMESTATEMENTS",
    "STATEMENTSOFINCOME", "STATEMENTOFINCOME",
    "CONSOLIDATEDSTATEMENTSOFINCOME", "CONSOLIDATEDSTATEMENTOFINCOME",
    "CONSOLIDATEDSTATEMENTSOFINCOMELOSS", "CONSOLIDATEDSTATEMENTOFINCOMELOSS",
    "STATEMENTSOFEARNINGS", "STATEMENTOFEARNINGS",
    "CONSOLIDATEDSTATEMENTSOFEARNINGS", "CONSOLIDATEDSTATEMENTOFEARNINGS"]),
  ("CASH_FLOW", [
    "CONSOLIDATEDSTATEMENTSOFCASHFLOWS", "CONSOLIDATEDSTATEMENTOFCASHFLOWS",
    "STATEMENTOFCASHFLOWS", "STATEMENTSOFCASHFLOWS",
    "CASHFLOWSTATEMENT", "CASHFLOWSTATEMENTS"]),
  ("EQUITY", [
    "CONSOLIDATEDSTATEMENTSOFSHAREHOLDERSEQUITY",
    "CONSOLIDATEDSTATEMENTOFSHAREHOLDERSEQUITY",
    "CONSOLIDATEDSTATEMENTSOFSTOCKHOLDERSEQUITY",
    "CONSOLIDATEDSTATEMENTOFSTOCKHOLDERSEQUITY",
    "STATEMENTOFSHAREHOLDERSEQUITY", "STATEMENTOFSTOCKHOLDERSEQUITY",
    "STATEMENTSOFCHANGESINEQUITY", "STATEMENTOFCHANGESINEQUITY",
    "CONSOLIDATEDSTATEMENTSOFCHANGESINEQUITY",
    "CONSOLIDATEDSTATEMENTOFCHANGESINEQUITY",
    "STATEMENTOFEQUITY", "STATEMENTSOFEQUITY"]),
  ("COMPREHENSIVE_INCOME", [
    "CONSOLIDATEDSTATEMENTSOFCOMPREHENSIVEINCOME",
    "CONSOLIDATEDSTATEMENTOFCOMPREHENSIVEINCOME",
    "STATEMENTOFCOMPREHENSIVEINCOME", "STATEMENTSOFCOMPREHENSIVEINCOME",
    "COMPREHENSIVEINCOMESTATEMENT", "COMPREHENSIVEINCOMESTATEMENTS"]),
  ("COVER_PAGE", [
    "COVERPAGE", "COVER", "DOCUMENTANDENTITYINFORMATION", "ENTITYINFORMATION"])]

/-- `FinancialStatementMapper.get_standard_name`: last URI segment, extension
stripped, uppercased alphanumerics, matched against the variant table. -/
def get_standard_name (roleName : String) : Option String :=
  let base := firstSegBefore '.' (lastSegAfter '/' roleName)
  let norm := String.mk ((base.data.filter Char.isAlphanum).map Char.toUpper)
  (standardStatements.find? (fun p => p.2.contains norm)).map (fun p => p.1)

/-! ## Concept index (`_build_concept_index` / `_index_concepts`, lines 187-194) -/

/-- `self.concept_index[concept].append(role)` on the `defaultdict(list)`. -/
def idxAppend (idx : AList String (List String)) (k v : String) : AList String (List String) :=
  match AList.get? idx k with
  | some xs => AList.set idx k (xs ++ [v])
  | none => idx ++ [(k, [v])]

/-- `_index_concepts`: pre-order traversal appending the role per visited
element, with an explicit fuel bound on the depth. -/
def indexConcepts (s : Store) (role : String) :
    Nat → NodeRef → AList String (List String) → AList String (List String)
  | 0, _, idx => idx
  | fuel + 1, r, idx =>
    let e := getE s r
    e.children.foldl (fun idx c => indexConcepts s role fuel c idx) (idxAppend idx e.concept role)

/-! ## The aggregate (`XBRLPresentation`, lines 86-94) -/

structure XBRLPresentation where
  roles : AList String Store
  skipped_roles : List String
  standard_statement_map : AList String String
  concept_index : AList String (List String)
deriving DecidableEq, Repr

/-- `XBRLPresentation.parse` over the presentationLink blocks of a document:
build each role's tree (skipping blocks with a falsy role attribute and
blocks yielding no top-level element), then the statement map and the concept
index.  The source declares `skipped_roles` but never appends to it, so the
field stays `[]`. -/
def parsePresentation (plinks : List PLink) : XBRLPresentation :=
  let roles := plinks.foldl (fun rs pl =>
    if pl.role = "" then rs
    else match parseRole pl.role pl.locs pl.arcs with
      | some st => AList.set rs pl.role st
      | none => rs) []
  let smap := roles.foldl (fun m p =>
    match get_standard_name p.1 with
    | some sn => AList.set m sn p.1
    | none => m) []
  let cidx := roles.foldl (fun idx p =>
    indexConcepts p.2 p.1 (p.2.length + 1) (NodeRef.root p.1) idx) []
  { roles := roles, skipped_roles := [], standard_statement_map := smap,
    concept_index := cidx }

/-! ## Structural query layer (lines 196-263, 330-383) -/

/-- `get_role_by_standard_name` (line 196-197). -/
def get_role_by_standard_name (p : XBRLPresentation) (standard_name : String) : Option String :=
  AList.get? p.standard_statement_map standard_name

/-- `defaultdict.__getitem__`: reads the entry, inserting `[]` first when the
key is missing. -/
def ddGetItem (idx : AList String (List String)) (k : String) :
    List String × AList String (List String) :=
  match AList.get? idx k with
  | some xs => (xs, idx)
  | none => ([], idx ++ [(k, [])])

/-- `get_roles_containing_concept` (lines 199-208), with the concept index
passed explicitly so that the (absence of) mutation of the `defaultdict` is
part of the result: when the concept has no underscore, the namespaces
`us-gaap`, `ifrs-full`, `dei` are tried in order and the first present
namespaced key is read with `defaultdict` indexing; otherwise (or when none
is present) the plain `.get(concept, [])` runs. -/
def get_roles_containing_concept (idx : AList String (List String)) (concept : String) :
    List String × AList String (List String) :=
  if containsUnderscore concept then
    ((AList.get? idx concept).getD [], idx)
  else
    match ["us-gaap", "ifrs-full", "dei"].find?
        (fun ns => (AList.get? idx (ns ++ "_" ++ concept)).isSome) with
    | some ns => ddGetItem idx (ns ++ "_" ++ concept)
    | none => ((AList.get? idx concept).getD [], idx)

/-- The method view of `get_roles_containing_concept`: result plus the
post-call aggregate. -/
def method_get_roles_containing_concept (p : XBRLPresentation) (concept : String) :
    List String × XBRLPresentation :=
  let r := get_roles_containing_concept p.concept_index concept
  (r.1, { p with concept_index := r.2 })

/-- The free function `get_axes_for_role` (lines 330-353): collect the
`Axis`-typed immediate children of every `Table`-typed node found by the
depth-first search, not descending into tables. -/
def get_axes_for_role (s : Store) : Nat → NodeRef → List NodeRef
  | 0, _ => []
  | fuel + 1, r =>
    let e := getE s r
    if node_type e.concept = "Table" then
      e.children.filter (fun c => node_type (getE s c).concept = "Axis")
    else e.children.foldl (fun acc c => acc ++ get_axes_for_role s fuel c) []

/-- The method `XBRLPresentation.get_axes_for_role` (lines 210-221): when the
role is a known key it delegates to the free function, otherwise the method
body falls through and returns Python `None` — modelled as `none`. -/
def method_get_axes_for_role (p : XBRLPresentation) (role : String) :
    Option (List NodeRef) :=
  match AList.get? p.roles role with
  | some st => some (get_axes_for_role st (st.length + 1) (NodeRef.root role))
  | none => none

/-- `get_members_for_axis` (lines 356-375): members of the `Domain`-typed
children of the axis. -/
def get_members_for_axis (s : Store) (axis : NodeRef) : List NodeRef :=
  ((getE s axis).children.filter (fun d => node_type (getE s d).concept = "Domain")).foldl
    (fun acc d => acc ++ (getE s d).children.filter
      (fun m => node_type (getE s m).concept = "Member")) []

/-- `find_line_items` inside `get_statement_line_items` (lines 247-255). -/
def findLineItems (s : Store) : Nat → NodeRef → List NodeRef
  | 0, _ => []
  | fuel + 1, r =>
    let e := getE s r
    if node_type e.concept = "Table" then
      match e.children.find? (fun c => node_type (getE s c).concept = "LineItems") with
      | some c => (getE s c).children
      | none => []
    else e.children.foldl (fun acc c => acc ++ findLineItems s fuel c) []

/-- `get_statement_line_items` (lines 235-263) for a role name: `[]` when the
role is unknown. -/
def get_statement_line_items (p : XBRLPresentation) (role : String) : List NodeRef :=
  match AList.get? p.roles role with
  | some st => findLineItems st (st.length + 1) (NodeRef.root role)
  | none => []

/-- `get_root_element` (lines 378-383), as a bounded parent-chain walk:
`parentIter s k r` follows `parent` links for `k` steps, stopping at a node
without a parent. -/
def parentIter (s : Store) : Nat → NodeRef → NodeRef
  | 0, r => r
  | k + 1, r =>
    match (getE s r).parent with
    | some p => parentIter s k p
    | none => r

/-- Reachability from `root` through `children` links in store `s`. -/
inductive Reach (s : Store) (root : NodeRef) : NodeRef → Prop
  | base : Reach s root root
  | step {q r : NodeRef} : Reach s root q → r ∈ (getE s q).children → Reach s root r

/-! ## Example documents used by the witnesses and counterexamples -/

/-- Document with a merge: the arcs give `C2` the child `Y`, then attach `C1`
and `C2` (same normalized concept `Foo`) under `P`; the second attachment
merges `C2` into `C1`, so `Y` ends up under `C1` while keeping `parent = C2`. -/
def mergeDoc : PLink :=
  { role := "r",
    locs := [⟨"P", "s#P"⟩, ⟨"C1", "s#Foo"⟩, ⟨"C2", "s#Foo"⟩, ⟨"Y", "s#Y"⟩],
    arcs := [⟨"C2", "Y", "1", none⟩, ⟨"P", "C1", "1", none⟩, ⟨"P", "C2", "2", none⟩] }

/-- The parsed store of `mergeDoc`'s role. -/
def mergeSt : Store :=
  (AList.get? (parsePresentation [mergeDoc]).roles "r").getD []

/-- Document whose merge copies two grandchildren with equal normalized
concepts (`Z_9` and `Z_8` both normalize to `Z`) into one children list. -/
def dupDoc : PLink :=
  { role := "r3",
    locs := [⟨"P", "s#P"⟩, ⟨"C1", "s#Foo_1_2"⟩, ⟨"C2", "s#Foo_9"⟩,
             ⟨"X1", "s#Z_9"⟩, ⟨"X2", "s#Z_8"⟩],
    arcs := [⟨"C1", "X1", "1", none⟩, ⟨"C2", "X2", "1", none⟩,
             ⟨"P", "C1", "1", none⟩, ⟨"P", "C2", "2", none⟩] }

/-- The parsed store of `dupDoc`'s role. -/
def dupSt : Store :=
  (AList.get? (parsePresentation [dupDoc]).roles "r3").getD []

/-- A plain two-arc chain `T → A → B` with top-level element `T`. -/
def chainDoc : PLink :=
  { role := "r9",
    locs := [⟨"T", "s#T"⟩, ⟨"A", "s#A"⟩, ⟨"B", "s#B"⟩],
    arcs := [⟨"T", "A", "1", none⟩, ⟨"A", "B", "1", none⟩] }

/-- The parsed store of `chainDoc`'s role. -/
def chainSt : Store :=
  (AList.get? (parsePresentation [chainDoc]).roles "r9").getD []

/-- Document in which every locator appears as some arc's child, so no
top-level element exists and the role is dropped. -/
def noTopDoc : PLink :=
  { role := "r8",
    locs := [⟨"A", "s#A"⟩, ⟨"B", "s#B"⟩],
    arcs := [⟨"A", "B", "1", none⟩, ⟨"B", "A", "2", none⟩] }

/-- A concept index for the namespace-fallback analysis: both the bare
concept and its `us-gaap` variant are present. -/
def bothIdx : AList String (List String) := [("Assets", ["r1"]), ("us-gaap_Assets", ["r2"])]

/-- A concept index holding only the `us-gaap` variant. -/
def nsOnlyIdx : AList String (List String) := [("us-gaap_Assets", ["rA"])]

/-- A two-element store used to exercise `processArc` directly. -/
def stepSt : Store :=
  [(.loc "p", mkPE "p" "s#p" "0" (some "P") none),
   (.loc "c", mkPE "c" "s#c" "0" (some "C") none)]

/-- The arc `p → c` for `stepSt`. -/
def stepArc : Arc := ⟨"p", "c", "1", none⟩

/-- Store for the merge witness: parent `p`, first child `c1` (concept
`Foo_1`, one child `x`), second child `c2` (concept `Foo_12`, children `y`
and `z`). -/
def mSt : Store :=
  [(.loc "p", mkPE "p" "s#p" "0" (some "P") none),
   (.loc "c1", { mkPE "c1" "s#c1" "0" (some "Foo_1") none with children := [.loc "x"] }),
   (.loc "c2", { mkPE "c2long" "s#c2" "0" (some "Foo_12") none with
                   children := [.loc "y", .loc "z"] }),
   (.loc "x", mkPE "x" "s#x" "0" (some "X") none),
   (.loc "y", mkPE "y" "s#y" "0" (some "Y") none),
   (.loc "z", mkPE "z" "s#z" "0" (some "Zc") none)]

/-- No two entries of the `children` list of `q` in `s` have equal
normalized concepts. -/
def noDupNormChildren (s : Store) (q : NodeRef) : Prop :=
  ((getE s q).children.map (fun r => normalize_concept (getE s r).concept)).Nodup

/-- Whether both endpoints of an arc resolve in the initial store
(`if parent_label in locs and child_label in locs`). -/
def resolvableB (s0 : Store) (a : Arc) : Bool :=
  (Store.get? s0 (.loc a.fromLabel)).isSome && (Store.get? s0 (.loc a.toLabel)).isSome

/-- Shape of the store entering the arc loop: unique keys, every key a
locator reference whose record carries the key as label, no children, no
parent.  Both `buildLocs` and `legacyLocs` produce such stores. -/
structure WFInit (s0 : Store) : Prop where
  nodup : (s0.map Prod.fst).Nodup
  keyed : ∀ r e, Store.get? s0 r = some e →
    (∃ l, r = NodeRef.loc l ∧ e.label = l) ∧ e.children = [] ∧ e.parent = none

/-- Invariant of the arc-processing loop relative to the initial store `s0`
and the already processed prefix `done`, for documents whose arcs have
pairwise distinct child labels and trigger no merge. -/
structure BuildInv (s0 : Store) (done : List Arc) (s : Store) : Prop where
  keys_eq : s.map Prod.fst = s0.map Prod.fst
  concept_eq : ∀ r, (getE s r).concept = (getE s0 r).concept
  label_eq : ∀ r, (getE s r).label = (getE s0 r).label
  children_eq : ∀ l, (getE s (.loc l)).children =
    (done.filter (fun b => b.fromLabel = l && resolvableB s0 b)).map (fun b => NodeRef.loc b.toLabel)
  parent_arc : ∀ b ∈ done, resolvableB s0 b = true →
    (getE s (.loc b.toLabel)).parent = some (.loc b.fromLabel)
  parent_none : ∀ l, (∀ b ∈ done, resolvableB s0 b = true → b.toLabel ≠ l) →
    (getE s (.loc l)).parent = none

/-- The locators and arcs of the document used to witness the
tree-well-formedness theorem. -/
def wfLocs : List Loc := [⟨"A", "s#A"⟩, ⟨"B", "s#B"⟩]

/-- Arcs of the well-formedness witness document. -/
def wfArcs : List Arc := [⟨"A", "B", "1", none⟩]

/-- The parsed store of the well-formedness witness document. -/
def wfSt : Store := (parseRole "rw" wfLocs wfArcs).getD []

/-! ## Association-list and store lemmas -/

theorem AList.get?_nil {α β : Type} [DecidableEq α] (a : α) :
    AList.get? ([] : AList α β) a = none := rfl

theorem AList.get?_cons {α β : Type} [DecidableEq α] (k : α) (v : β)
    (rest : AList α β) (a : α) :
    AList.get? ((k, v) :: rest) a = if k = a then some v else AList.get? rest a := rfl

theorem AList.get?_set {α β : Type} [DecidableEq α] (l : AList α β) (a : α) (b : β) (a' : α) :
    AList.get? (AList.set l a b) a' = if a = a' then some b else AList.get? l a' := by
  induction l with
  | nil => simp [AList.set, AList.get?]
  | cons p rest ih =>
    obtain ⟨k, v⟩ := p
    by_cases hk : k = a
    · subst hk
      by_cases h : k = a' <;> simp [AList.set, AList.get?, h]
    · simp only [AList.set, if_neg hk, AList.get?, ih]
      by_cases hk' : k = a'
      · subst hk'
        simp [Ne.symm hk]
      · simp [hk']

theorem Store.get?_eq (s : Store) (r : NodeRef) : Store.get? s r = AList.get? s r := rfl

theorem get?_upd (s : Store) (r : NodeRef) (f : PElem → PElem) (r' : NodeRef) :
    Store.get? (upd s r f) r' =
      if r' = r then (Store.get? s r').map f else Store.get? s r' := by
  induction s with
  | nil => by_cases h : r' = r <;> simp [upd, Store.get?, AList.get?, h]
  | cons p rest ih =>
    obtain ⟨k, v⟩ := p
    have hhead : upd ((k, v) :: rest) r f
        = (k, if k = r then f v else v) :: upd rest r f := by
      by_cases hk : k = r <;> simp [upd, hk]
    rw [hhead]
    by_cases hk' : k = r'
    · subst hk'
      by_cases hk : k = r
      · subst hk
        simp [Store.get?, AList.get?]
      · simp [Store.get?, AList.get?, hk, Ne.symm hk]
    · simp only [Store.get?, AList.get?, if_neg hk'] at ih ⊢
      exact ih

theorem map_fst_upd (s : Store) (r : NodeRef) (f : PElem → PElem) :
    (upd s r f).map Prod.fst = s.map Prod.fst := by
  induction s with
  | nil => rfl
  | cons p rest ih =>
    obtain ⟨k, v⟩ := p
    by_cases hk : k = r <;> simp [upd, hk] <;> simpa [upd] using ih

theorem get?_isSome_iff_mem (s : Store) (r : NodeRef) :
    (Store.get? s r).isSome = true ↔ r ∈ s.map Prod.fst := by
  induction s with
  | nil => simp [Store.get?, AList.get?]
  | cons p rest ih =>
    obtain ⟨k, v⟩ := p
    by_cases hk : k = r
    · subst hk
      simp [Store.get?, AList.get?]
    · simp only [Store.get?, AList.get?, if_neg hk, List.map_cons, List.mem_cons] at ih ⊢
      rw [ih]
      have : ¬ r = k := Ne.symm hk
      tauto

theorem getE_eq (s : Store) (r : NodeRef) : getE s r = (Store.get? s r).getD defaultPE := rfl

theorem get?_upd_self (s : Store) (r : NodeRef) (f : PElem → PElem) (e : PElem)
    (h : Store.get? s r = some e) : Store.get? (upd s r f) r = some (f e) := by
  rw [get?_upd]
  simp [h]

theorem get?_upd_ne (s : Store) (r : NodeRef) (f : PElem → PElem) (r' : NodeRef)
    (h : r' ≠ r) : Store.get? (upd s r f) r' = Store.get? s r' := by
  rw [get?_upd]
  simp [h]

theorem getE_upd_proj {γ : Type} (g : PElem → γ) (s : Store) (r : NodeRef) (f : PElem → PElem)
    (hf : ∀ x, g (f x) = g x) (r' : NodeRef) :
    g (getE (upd s r f) r') = g (getE s r') := by
  rw [getE_eq, getE_eq, get?_upd]
  by_cases h : r' = r
  · subst h
    cases hx : Store.get? s r' <;> simp [hx, hf]
  · simp [h]

theorem find?_first {α : Type} (p : α → Bool) (l1 l2 : List α) (e : α)
    (h1 : ∀ x ∈ l1, p x = false) (he : p e = true) :
    List.find? p (l1 ++ e :: l2) = some e := by
  induction l1 with
  | nil => simpa using List.find?_cons_of_pos l2 he
  | cons x xs ih =>
    have hx := h1 x (by simp)
    rw [List.cons_append, List.find?_cons_of_neg _ (by simp [hx])]
    exact ih (fun y hy => h1 y (by simp [hy]))

/-! ## Branch characterizations of `processArc` -/

theorem processArc_skip (s : Store) (a : Arc)
    (h : Store.get? s (.loc a.fromLabel) = none ∨ Store.get? s (.loc a.toLabel) = none) :
    processArc s a = s := by
  unfold processArc
  rcases h with h | h
  · rw [h]
  · rw [h]
    cases Store.get? s (.loc a.fromLabel) <;> rfl

/-- When both endpoints resolve and no child of the parent has the new
child's normalized concept, `processArc` takes the append branch: the
child's attributes are written, it is appended to the parent's children, and
its `parent` is set. -/
theorem processArc_append (s : Store) (a : Arc) (pe ce : PElem)
    (hp : Store.get? s (.loc a.fromLabel) = some pe)
    (hc : Store.get? s (.loc a.toLabel) = some ce)
    (hnm : ∀ r ∈ pe.children,
      normalize_concept (getE s r).concept ≠ normalize_concept ce.concept) :
    processArc s a =
      upd (upd (upd s (.loc a.toLabel) (fun c =>
          { c with order := a.orderAttr, level := pe.level + 1,
                   preferred_label := a.preferredLabel }))
        (.loc a.fromLabel)
        (fun p => { p with children := p.children ++ [NodeRef.loc a.toLabel] }))
        (.loc a.toLabel) (fun c => { c with parent := some (NodeRef.loc a.fromLabel) }) := by
  unfold processArc
  rw [hp, hc]
  simp only
  have hch : (getE (upd s (.loc a.fromLabel) id) (.loc a.fromLabel)).children = pe.children := by
    simp [getE_eq, hp, upd]
  have hconcept : ∀ r', (getE (upd s (.loc a.toLabel) (fun c =>
      { c with order := a.orderAttr, level := pe.level + 1,
               preferred_label := a.preferredLabel })) r').concept = (getE s r').concept :=
    getE_upd_proj (fun e => e.concept) s _ _ (fun _ => rfl)
  have hchildren : ∀ r', (getE (upd s (.loc a.toLabel) (fun c =>
      { c with order := a.orderAttr, level := pe.level + 1,
               preferred_label := a.preferredLabel })) r').children = (getE s r').children :=
    getE_upd_proj (fun e => e.children) s _ _ (fun _ => rfl)
  have hfind : List.find? (fun r =>
      normalize_concept ((getE (upd s (.loc a.toLabel) (fun c =>
        { c with order := a.orderAttr, level := pe.level + 1,
                 preferred_label := a.preferredLabel })) r).concept) =
      normalize_concept ((getE (upd s (.loc a.toLabel) (fun c =>
        { c with order := a.orderAttr, level := pe.level + 1,
                 preferred_label := a.preferredLabel })) (.loc a.toLabel)).concept))
      ((getE (upd s (.loc a.toLabel) (fun c =>
        { c with order := a.orderAttr, level := pe.level + 1,
                 preferred_label := a.preferredLabel })) (.loc a.fromLabel)).children) = none := by
    rw [List.find?_eq_none]
    intro r hr
    have hrch : r ∈ pe.children := by
      rw [hchildren (.loc a.fromLabel)] at hr
      simpa [getE_eq, hp] using hr
    simp only [hconcept, decide_eq_true_eq]
    have : (getE s (.loc a.toLabel)).concept = ce.concept := by simp [getE_eq, hc]
    rw [this]
    exact hnm r hrch
  rw [hfind]

/-- When both endpoints resolve, the parent's children split as
`l1 ++ e :: l2` with every entry of `l1` missing the new child's normalized
concept and `e` (distinct from both endpoints) carrying it, `processArc`
takes the merge branch and rewrites only `e`: children extended with the
arc child's children, longer label, shorter concept, truthy preferred label
overwritten. -/
theorem processArc_merge (s : Store) (a : Arc) (pe ce : PElem) (e : NodeRef)
    (l1 l2 : List NodeRef)
    (hp : Store.get? s (.loc a.fromLabel) = some pe)
    (hc : Store.get? s (.loc a.toLabel) = some ce)
    (hft : a.fromLabel ≠ a.toLabel)
    (het : e ≠ .loc a.toLabel)
    (hsplit : pe.children = l1 ++ e :: l2)
    (hl1 : ∀ r ∈ l1,
      normalize_concept (getE s r).concept ≠ normalize_concept ce.concept)
    (he : normalize_concept (getE s e).concept = normalize_concept ce.concept) :
    processArc s a =
      mergeInto s (.loc a.toLabel) a.orderAttr (pe.level + 1) a.preferredLabel e ce := by
  unfold mergeInto
  unfold processArc
  rw [hp, hc]
  simp only
  set f1 : PElem → PElem := fun c =>
    { c with order := a.orderAttr, level := pe.level + 1,
             preferred_label := a.preferredLabel } with hf1
  have hto1 : Store.get? (upd s (.loc a.toLabel) f1) (.loc a.toLabel) = some (f1 ce) :=
    get?_upd_self s _ f1 ce hc
  have hfromto : NodeRef.loc a.fromLabel ≠ NodeRef.loc a.toLabel := by simp [hft]
  have hfrom1 : Store.get? (upd s (.loc a.toLabel) f1) (.loc a.fromLabel) = some pe := by
    rw [get?_upd_ne _ _ _ _ hfromto]
    exact hp
  have hconcept : ∀ r', (getE (upd s (.loc a.toLabel) f1) r').concept = (getE s r').concept :=
    getE_upd_proj (fun x => x.concept) s _ f1 (fun _ => rfl)
  have hgetto : getE (upd s (.loc a.toLabel) f1) (.loc a.toLabel) = f1 ce := by
    simp [getE_eq, hto1]
  have hfind : List.find? (fun r =>
      normalize_concept ((getE (upd s (.loc a.toLabel) f1) r).concept) =
      normalize_concept ((getE (upd s (.loc a.toLabel) f1) (.loc a.toLabel)).concept))
      ((getE (upd s (.loc a.toLabel) f1) (.loc a.fromLabel)).children) = some e := by
    have hch : (getE (upd s (.loc a.toLabel) f1) (.loc a.fromLabel)).children = l1 ++ e :: l2 := by
      rw [show getE (upd s (.loc a.toLabel) f1) (.loc a.fromLabel) = pe by simp [getE_eq, hfrom1]]
      exact hsplit
    rw [hch]
    refine find?_first _ l1 l2 e ?_ ?_
    · intro x hx
      simp only [hconcept, hgetto, decide_eq_false_iff_not]
      exact hl1 x hx
    · simp only [hconcept, hgetto, decide_eq_true_eq]
      exact he
  rw [hfind]
  simp only
  rw [hgetto]
  have hchce : (f1 ce).children = ce.children := rfl
  rw [hchce]
  set s2 := upd (upd s (.loc a.toLabel) f1) e
    (fun ex => { ex with children := ex.children ++ ce.children }) with hs2
  have hto2' : getE s2 (.loc a.toLabel) = f1 ce := by
    rw [hs2, getE_eq, get?_upd_ne _ _ _ _ (Ne.symm het), hto1]
    rfl
  rw [hto2']
  have hlab : (f1 ce).label = ce.label := rfl
  rw [hlab]
  set s3 := upd s2 e (fun ex =>
    if ex.label.length < ce.label.length then { ex with label := ce.label } else ex) with hs3
  have hto3 : getE s3 (.loc a.toLabel) = f1 ce := by
    rw [hs3, getE_eq, get?_upd_ne _ _ _ _ (Ne.symm het)]
    rw [hs2, get?_upd_ne _ _ _ _ (Ne.symm het), hto1]
    rfl
  rw [hto3]
  have hcon : (f1 ce).concept = ce.concept := rfl
  rw [hcon]
  set s4 := upd s3 e (fun ex =>
    if ce.concept.length < ex.concept.length then { ex with concept := ce.concept } else ex) with hs4
  have hto4 : getE s4 (.loc a.toLabel) = f1 ce := by
    rw [hs4, getE_eq, get?_upd_ne _ _ _ _ (Ne.symm het)]
    rw [hs3, get?_upd_ne _ _ _ _ (Ne.symm het)]
    rw [hs2, get?_upd_ne _ _ _ _ (Ne.symm het), hto1]
    rfl
  rw [hto4]

theorem mergeInto_get?_ne (s : Store) (toRef : NodeRef) (o : String) (lv : Nat)
    (pl : Option String) (e : NodeRef) (ce : PElem) (r : NodeRef)
    (h1 : r ≠ toRef) (h2 : r ≠ e) :
    Store.get? (mergeInto s toRef o lv pl e ce) r = Store.get? s r := by
  unfold mergeInto
  split
  · rw [get?_upd_ne _ _ _ _ h2, get?_upd_ne _ _ _ _ h2, get?_upd_ne _ _ _ _ h2,
      get?_upd_ne _ _ _ _ h2, get?_upd_ne _ _ _ _ h1]
  · rw [get?_upd_ne _ _ _ _ h2, get?_upd_ne _ _ _ _ h2, get?_upd_ne _ _ _ _ h2,
      get?_upd_ne _ _ _ _ h1]

theorem mergeInto_get?_e (s : Store) (toRef : NodeRef) (o : String) (lv : Nat)
    (pl : Option String) (e : NodeRef) (ce ex : PElem)
    (het : e ≠ toRef) (hex : Store.get? s e = some ex) :
    Store.get? (mergeInto s toRef o lv pl e ce) e =
      some { ex with
        children := ex.children ++ ce.children,
        label := if ex.label.length < ce.label.length then ce.label else ex.label,
        concept := if ce.concept.length < ex.concept.length then ce.concept else ex.concept,
        preferred_label := if truthyOpt pl then pl else ex.preferred_label } := by
  have j1 : Store.get? (upd s toRef (fun c =>
      { c with order := o, level := lv, preferred_label := pl })) e = some ex := by
    rw [get?_upd_ne _ _ _ _ het]
    exact hex
  have j2 : Store.get? (upd (upd s toRef (fun c =>
      { c with order := o, level := lv, preferred_label := pl })) e
      (fun ex => { ex with children := ex.children ++ ce.children })) e
      = some { ex with children := ex.children ++ ce.children } :=
    get?_upd_self _ _ _ _ j1
  unfold mergeInto
  split
  · rename_i htr
    rw [get?_upd_self _ _ _ _ (get?_upd_self _ _ _ _ (get?_upd_self _ _ _ _ j2))]
    simp only [htr, if_true]
    split_ifs <;> rfl
  · rename_i htr
    rw [get?_upd_self _ _ _ _ (get?_upd_self _ _ _ _ j2)]
    simp only [Bool.not_eq_true] at htr
    simp only [htr, Bool.false_eq_true, if_false]
    split_ifs <;> rfl

theorem getE_upd_eq (t : Store) (r : NodeRef) (f : PElem → PElem) (q : NodeRef) :
    getE (upd t r f) q =
      if q = r ∧ (Store.get? t r).isSome = true then f (getE t q) else getE t q := by
  rw [getE_eq, get?_upd]
  by_cases h : q = r
  · subst h
    cases hx : Store.get? t q <;> simp [hx, getE_eq]
  · simp [h, getE_eq]

theorem append_isSome_facts (s : Store) (a : Arc) (pe ce : PElem)
    (hp : Store.get? s (.loc a.fromLabel) = some pe)
    (hc : Store.get? s (.loc a.toLabel) = some ce) :
    (Store.get? s (.loc a.toLabel)).isSome = true ∧
    (Store.get? (upd s (.loc a.toLabel) (fun c =>
      { c with order := a.orderAttr, level := pe.level + 1,
               preferred_label := a.preferredLabel })) (.loc a.fromLabel)).isSome = true ∧
    (Store.get? (upd (upd s (.loc a.toLabel) (fun c =>
      { c with order := a.orderAttr, level := pe.level + 1,
               preferred_label := a.preferredLabel }))
      (.loc a.fromLabel)
      (fun p => { p with children := p.children ++ [NodeRef.loc a.toLabel] }))
      (.loc a.toLabel)).isSome = true := by
  refine ⟨by simp [hc], ?_, ?_⟩
  · rw [get?_upd]
    split <;> simp [hp, hc]
  · rw [get?_upd]
    split <;> rw [get?_upd] <;> split <;> simp [hp, hc]

theorem append_children_eq (s : Store) (a : Arc) (pe ce : PElem)
    (hp : Store.get? s (.loc a.fromLabel) = some pe)
    (hc : Store.get? s (.loc a.toLabel) = some ce)
    (hnm : ∀ r ∈ pe.children,
      normalize_concept (getE s r).concept ≠ normalize_concept ce.concept)
    (q : NodeRef) :
    (getE (processArc s a) q).children =
      (if q = .loc a.fromLabel then (getE s q).children ++ [NodeRef.loc a.toLabel]
       else (getE s q).children) := by
  obtain ⟨h1, h2, h3⟩ := append_isSome_facts s a pe ce hp hc
  rw [processArc_append s a pe ce hp hc hnm]
  by_cases hf : q = .loc a.fromLabel <;> by_cases ht : q = .loc a.toLabel <;>
    simp only [getE_upd_eq, h1, h2, h3, hf, ht] <;> simp_all

theorem append_concept_eq (s : Store) (a : Arc) (pe ce : PElem)
    (hp : Store.get? s (.loc a.fromLabel) = some pe)
    (hc : Store.get? s (.loc a.toLabel) = some ce)
    (hnm : ∀ r ∈ pe.children,
      normalize_concept (getE s r).concept ≠ normalize_concept ce.concept)
    (q : NodeRef) :
    (getE (processArc s a) q).concept = (getE s q).concept := by
  rw [processArc_append s a pe ce hp hc hnm]
  simp only [getE_upd_eq]
  split_ifs <;> rfl

theorem append_label_eq (s : Store) (a : Arc) (pe ce : PElem)
    (hp : Store.get? s (.loc a.fromLabel) = some pe)
    (hc : Store.get? s (.loc a.toLabel) = some ce)
    (hnm : ∀ r ∈ pe.children,
      normalize_concept (getE s r).concept ≠ normalize_concept ce.concept)
    (q : NodeRef) :
    (getE (processArc s a) q).label = (getE s q).label := by
  rw [processArc_append s a pe ce hp hc hnm]
  simp only [getE_upd_eq]
  split_ifs <;> rfl

theorem append_parent_eq (s : Store) (a : Arc) (pe ce : PElem)
    (hp : Store.get? s (.loc a.fromLabel) = some pe)
    (hc : Store.get? s (.loc a.toLabel) = some ce)
    (hnm : ∀ r ∈ pe.children,
      normalize_concept (getE s r).concept ≠ normalize_concept ce.concept)
    (q : NodeRef) :
    (getE (processArc s a) q).parent =
      (if q = .loc a.toLabel then some (NodeRef.loc a.fromLabel)
       else (getE s q).parent) := by
  obtain ⟨h1, h2, h3⟩ := append_isSome_facts s a pe ce hp hc
  rw [processArc_append s a pe ce hp hc hnm]
  by_cases hf : q = .loc a.fromLabel <;> by_cases ht : q = .loc a.toLabel <;>
    simp only [getE_upd_eq, h1, h2, h3, hf, ht] <;> simp_all

theorem map_fst_set {α β : Type} [DecidableEq α] (l : AList α β) (a : α) (b : β) :
    (AList.set l a b).map Prod.fst =
      if a ∈ l.map Prod.fst then l.map Prod.fst else l.map Prod.fst ++ [a] := by
  induction l with
  | nil => simp [AList.set]
  | cons p rest ih =>
    obtain ⟨k, v⟩ := p
    by_cases hk : k = a
    · subst hk
      simp [AList.set]
    · simp only [AList.set, if_neg hk, List.map_cons, ih, List.mem_cons]
      by_cases hmem : a ∈ rest.map Prod.fst
      · simp [hmem, Ne.symm hk]
      · simp [hmem, Ne.symm hk]

theorem nodup_set {α β : Type} [DecidableEq α] (l : AList α β) (a : α) (b : β)
    (h : (l.map Prod.fst).Nodup) : ((AList.set l a b).map Prod.fst).Nodup := by
  rw [map_fst_set]
  by_cases hmem : a ∈ l.map Prod.fst
  · simpa [hmem] using h
  · simp only [hmem, if_false]
    simpa [List.nodup_append, hmem] using h

theorem wf_set (s : Store) (l : String) (e : PElem) (hw : WFInit s)
    (hl : e.label = l) (hc : e.children = []) (hpp : e.parent = none) :
    WFInit (Store.set s (.loc l) e) := by
  refine ⟨nodup_set s _ e hw.nodup, ?_⟩
  intro r e' hr
  rw [Store.get?_eq] at hr
  unfold Store.set at hr
  rw [AList.get?_set] at hr
  by_cases hx : NodeRef.loc l = r
  · rw [if_pos hx] at hr
    cases hr
    exact ⟨⟨l, hx.symm, hl⟩, hc, hpp⟩
  · rw [if_neg hx] at hr
    exact hw.keyed r e' hr

theorem wf_nil : WFInit [] := by
  refine ⟨by simp, ?_⟩
  intro r e hr
  simp [Store.get?, AList.get?] at hr

theorem wf_buildLocs (locs : List Loc) : WFInit (buildLocs locs) := by
  unfold buildLocs
  have aux : ∀ (ls : List Loc) (s : Store), WFInit s →
      WFInit (ls.foldl (fun s l =>
        if l.label = "" || l.href = "" then s
        else s.set (.loc l.label)
          (mkPE l.label l.href "0"
            (some (normalize_concept (lastSegAfter '#' l.href))) none)) s) := by
    intro ls
    induction ls with
    | nil => intro s hs; exact hs
    | cons x xs ih =>
      intro s hs
      simp only [List.foldl_cons]
      by_cases hx : x.label = "" || x.href = ""
      · rw [if_pos hx]
        exact ih s hs
      · rw [if_neg hx]
        exact ih _ (wf_set s x.label _ hs rfl rfl rfl)
  exact aux locs [] wf_nil

theorem wf_legacyLocs (arcs : List Arc) : WFInit (legacyLocs arcs) := by
  unfold legacyLocs
  have aux : ∀ (as : List Arc) (s : Store), WFInit s →
      WFInit (as.foldl (fun s a =>
        let s := if (s.get? (.loc a.fromLabel)).isSome then s
          else s.set (.loc a.fromLabel)
            (mkPE a.fromLabel "" "0" (some (normalize_concept a.fromLabel)) none)
        if (s.get? (.loc a.toLabel)).isSome then s
        else s.set (.loc a.toLabel)
          (mkPE a.toLabel "" "0" (some (normalize_concept a.toLabel)) none)) s) := by
    intro as
    induction as with
    | nil => intro s hs; exact hs
    | cons x xs ih =>
      intro s hs
      simp only [List.foldl_cons]
      refine ih _ ?_
      have h1 : WFInit (if (Store.get? s (.loc x.fromLabel)).isSome = true then s
          else s.set (.loc x.fromLabel)
            (mkPE x.fromLabel "" "0" (some (normalize_concept x.fromLabel)) none)) := by
        split
        · exact hs
        · exact wf_set s x.fromLabel
            (mkPE x.fromLabel "" "0" (some (normalize_concept x.fromLabel)) none) hs rfl rfl rfl
      generalize hgen : (if (Store.get? s (.loc x.fromLabel)).isSome = true then s
          else s.set (.loc x.fromLabel)
            (mkPE x.fromLabel "" "0" (some (normalize_concept x.fromLabel)) none)) = s2
      rw [hgen] at h1
      split
      · exact h1
      · exact wf_set s2 x.toLabel
          (mkPE x.toLabel "" "0" (some (normalize_concept x.toLabel)) none) h1 rfl rfl rfl
  exact aux arcs [] wf_nil

theorem wf_initStore (locs : List Loc) (arcs : List Arc) : WFInit (initStore locs arcs) := by
  unfold initStore
  dsimp only
  split
  · exact wf_legacyLocs arcs
  · exact wf_buildLocs locs

theorem get?_eq_of_mem_nodup (S : Store) (hnd : (S.map Prod.fst).Nodup)
    (p : NodeRef × PElem) (hp : p ∈ S) : Store.get? S p.1 = some p.2 := by
  induction S with
  | nil => cases hp
  | cons x rest ih =>
    rw [List.mem_cons] at hp
    rcases hp with rfl | hp
    · obtain ⟨k, v⟩ := p
      simp [Store.get?, AList.get?]
    · have hk : x.1 ≠ p.1 := by
        intro hke
        rw [List.map_cons, List.nodup_cons] at hnd
        exact hnd.1 (hke ▸ List.mem_map.mpr ⟨p, hp, rfl⟩)
      obtain ⟨k, v⟩ := x
      rw [Store.get?_eq, AList.get?_cons, if_neg hk, ← Store.get?_eq]
      refine ih ?_ hp
      rw [List.map_cons, List.nodup_cons] at hnd
      exact hnd.2

theorem mem_roleChildren (S : Store) (arcs : List Arc) (r : NodeRef) :
    r ∈ roleChildrenOf S arcs ↔
      ∃ p ∈ S, p.1 = r ∧ arcs.any (fun a => a.toLabel = p.2.label) = false := by
  unfold roleChildrenOf
  rw [List.mem_filterMap]
  constructor
  · rintro ⟨p, hp, hf⟩
    by_cases hany : arcs.any (fun a => a.toLabel = p.2.label) = true
    · simp [hany] at hf
    · simp only [hany, if_false] at hf
      cases hf
      exact ⟨p, hp, rfl, by simpa using hany⟩
  · rintro ⟨p, hp, rfl, hany⟩
    exact ⟨p, hp, by simp [hany]⟩

theorem roleChildren_sublist (S : Store) (arcs : List Arc) :
    (roleChildrenOf S arcs).Sublist (S.map Prod.fst) := by
  unfold roleChildrenOf
  induction S with
  | nil => simp
  | cons p rest ih =>
    simp only [List.filterMap_cons, List.map_cons]
    split
    · exact ih.cons _
    · rename_i heq
      by_cases hany : arcs.any (fun a => a.toLabel = p.2.label) = true
      · simp [hany] at heq
      · simp only [hany, if_false] at heq
        cases heq
        exact ih.cons₂ _

theorem get?_foldl_setParent (S : Store) (rc : List NodeRef) (root : NodeRef) (r : NodeRef) :
    Store.get? (rc.foldl (fun s x =>
      upd s x (fun e => { e with parent := some root })) S) r =
      (if r ∈ rc then (Store.get? S r).map (fun e => { e with parent := some root })
       else Store.get? S r) := by
  induction rc generalizing S with
  | nil => simp
  | cons x rc ih =>
    simp only [List.foldl_cons]
    rw [ih]
    by_cases hmem : r ∈ rc
    · rw [if_pos hmem, if_pos (by simp [hmem]), get?_upd]
      by_cases hrx : r = x
      · cases Store.get? S r <;> simp [hrx]
      · simp [hrx]
    · rw [if_neg hmem, get?_upd]
      by_cases hrx : r = x
      · simp [hrx]
      · simp [hrx, hmem]

theorem isSome_congr_keys (s0 s : Store) (hkeys : s.map Prod.fst = s0.map Prod.fst)
    (r : NodeRef) : (Store.get? s r).isSome = (Store.get? s0 r).isSome := by
  by_cases hm : r ∈ s0.map Prod.fst
  · rw [(get?_isSome_iff_mem s r).mpr (by rw [hkeys]; exact hm),
      (get?_isSome_iff_mem s0 r).mpr hm]
  · have h1 : ¬ (Store.get? s r).isSome = true := fun hh =>
      hm (by rw [← hkeys]; exact (get?_isSome_iff_mem s r).mp hh)
    have h2 : ¬ (Store.get? s0 r).isSome = true := fun hh =>
      hm ((get?_isSome_iff_mem s0 r).mp hh)
    rw [Bool.not_eq_true] at h1 h2
    rw [h1, h2]

theorem buildInv_nil (s0 : Store) (hw : WFInit s0) : BuildInv s0 [] s0 := by
  refine ⟨rfl, fun r => rfl, fun r => rfl, ?_, ?_, ?_⟩
  · intro l
    simp only [List.filter_nil, List.map_nil]
    cases hx : Store.get? s0 (.loc l) with
    | none => rw [getE_eq, hx]; rfl
    | some e =>
      rw [getE_eq, hx]
      exact (hw.keyed _ e hx).2.1
  · intro b hb
    cases hb
  · intro l _
    cases hx : Store.get? s0 (.loc l) with
    | none => rw [getE_eq, hx]; rfl
    | some e =>
      rw [getE_eq, hx]
      exact (hw.keyed _ e hx).2.2

theorem buildInv_step (s0 : Store) (done : List Arc) (s : Store) (a : Arc)
    (hinv : BuildInv s0 done s)
    (hto : ∀ b ∈ done, b.toLabel ≠ a.toLabel)
    (hmg : ∀ b ∈ done, b.fromLabel = a.fromLabel → resolvableB s0 b = true →
      resolvableB s0 a = true →
      normalize_concept (getE s0 (.loc b.toLabel)).concept ≠
      normalize_concept (getE s0 (.loc a.toLabel)).concept) :
    BuildInv s0 (done ++ [a]) (processArc s a) := by
  have htrans : ∀ r, (Store.get? s r).isSome = (Store.get? s0 r).isSome :=
    isSome_congr_keys s0 s hinv.keys_eq
  by_cases hres : resolvableB s0 a = true
  case neg =>
    have hskip : processArc s a = s := by
      apply processArc_skip
      unfold resolvableB at hres
      rw [Bool.and_eq_true, not_and_or] at hres
      rcases hres with hres | hres
      · left
        rw [← Option.not_isSome_iff_eq_none, htrans]
        exact hres
      · right
        rw [← Option.not_isSome_iff_eq_none, htrans]
        exact hres
    rw [hskip]
    refine ⟨hinv.keys_eq, hinv.concept_eq, hinv.label_eq, ?_, ?_, ?_⟩
    · intro l
      rw [hinv.children_eq l, List.filter_append]
      have hfa : [a].filter (fun b => b.fromLabel = l && resolvableB s0 b) = [] := by
        simp only [List.filter_cons, List.filter_nil]
        rw [Bool.not_eq_true] at hres
        simp [hres]
      rw [hfa, List.append_nil]
    · intro b hb hbres
      rw [List.mem_append] at hb
      rcases hb with hb | hb
      · exact hinv.parent_arc b hb hbres
      · rw [List.mem_singleton] at hb
        subst hb
        exact absurd hbres hres
    · intro l hl
      exact hinv.parent_none l (fun b hb hbres => hl b (List.mem_append_left _ hb) hbres)
  case pos =>
    have hres' := hres
    unfold resolvableB at hres'
    rw [Bool.and_eq_true] at hres'
    obtain ⟨hf, ht2⟩ := hres'
    obtain ⟨pe, hpe⟩ := Option.isSome_iff_exists.mp (by rw [htrans]; exact hf)
    obtain ⟨ce, hce⟩ := Option.isSome_iff_exists.mp (by rw [htrans]; exact ht2)
    have hce_c : ce.concept = (getE s0 (.loc a.toLabel)).concept := by
      have h := hinv.concept_eq (.loc a.toLabel)
      rw [getE_eq, hce] at h
      exact h
    have hnm : ∀ r ∈ pe.children,
        normalize_concept (getE s r).concept ≠ normalize_concept ce.concept := by
      intro r hr
      have hpech : pe.children =
          (done.filter (fun b => b.fromLabel = a.fromLabel && resolvableB s0 b)).map
            (fun b => NodeRef.loc b.toLabel) := by
        have h := hinv.children_eq a.fromLabel
        rw [getE_eq, hpe] at h
        exact h
      rw [hpech, List.mem_map] at hr
      obtain ⟨b, hbf, rfl⟩ := hr
      rw [List.mem_filter] at hbf
      obtain ⟨hbdone, hcond⟩ := hbf
      rw [Bool.and_eq_true] at hcond
      obtain ⟨hbv, hbres⟩ := hcond
      have hbfrom : b.fromLabel = a.fromLabel := of_decide_eq_true hbv
      rw [hinv.concept_eq, hce_c]
      exact hmg b hbdone hbfrom hbres hres
    refine ⟨?_, ?_, ?_, ?_, ?_, ?_⟩
    · rw [processArc_append s a pe ce hpe hce hnm, map_fst_upd, map_fst_upd, map_fst_upd]
      exact hinv.keys_eq
    · intro r
      rw [append_concept_eq s a pe ce hpe hce hnm r]
      exact hinv.concept_eq r
    · intro r
      rw [append_label_eq s a pe ce hpe hce hnm r]
      exact hinv.label_eq r
    · intro l
      rw [append_children_eq s a pe ce hpe hce hnm (.loc l)]
      rw [List.filter_append, List.map_append]
      by_cases hl : l = a.fromLabel
      · rw [if_pos (by rw [hl]), hinv.children_eq l]
        have hfa : [a].filter (fun b => b.fromLabel = l && resolvableB s0 b) = [a] := by
          simp [List.filter_cons, hl, hres]
        rw [hfa]
        simp
      · rw [if_neg (by simp only [ne_eq, NodeRef.loc.injEq]; exact hl)]
        rw [hinv.children_eq l]
        have hfa : [a].filter (fun b => b.fromLabel = l && resolvableB s0 b) = [] := by
          simp only [List.filter_cons, List.filter_nil]
          have : ¬ (a.fromLabel = l) := fun hh => hl hh.symm
          simp [this]
        rw [hfa]
        simp
    · intro b hb hbres
      rw [List.mem_append] at hb
      rcases hb with hb | hb
      · rw [append_parent_eq s a pe ce hpe hce hnm]
        rw [if_neg (by simp only [NodeRef.loc.injEq]; exact hto b hb)]
        exact hinv.parent_arc b hb hbres
      · rw [List.mem_singleton] at hb
        rw [hb, append_parent_eq s a pe ce hpe hce hnm]
        rw [if_pos rfl]
    · intro l hl
      rw [append_parent_eq s a pe ce hpe hce hnm]
      have hlto : (NodeRef.loc l : NodeRef) ≠ NodeRef.loc a.toLabel := by
        have h := hl a (List.mem_append_right _ (by simp)) hres
        simp only [ne_eq, NodeRef.loc.injEq]
        exact fun hh => h hh.symm
      rw [if_neg hlto]
      exact hinv.parent_none l (fun b hb hbres => hl b (List.mem_append_left _ hb) hbres)

theorem buildInv_fold (s0 : Store) (hw : WFInit s0) (arcs : List Arc)
    (H1 : (arcs.map Arc.toLabel).Nodup)
    (H2 : ∀ a ∈ arcs, ∀ b ∈ arcs, a.fromLabel = b.fromLabel → a ≠ b →
      normalize_concept (getE s0 (.loc a.toLabel)).concept ≠
      normalize_concept (getE s0 (.loc b.toLabel)).concept) :
    BuildInv s0 arcs (arcs.foldl processArc s0) := by
  suffices aux : ∀ (rest done : List Arc) (s : Store), done ++ rest = arcs →
      BuildInv s0 done s → BuildInv s0 (done ++ rest) (rest.foldl processArc s) by
    have h := aux arcs [] s0 rfl (buildInv_nil s0 hw)
    simpa using h
  intro rest
  induction rest with
  | nil =>
    intro done s heq hinv
    simpa using hinv
  | cons a rest ih =>
    intro done s heq hinv
    have hadone : arcs = done ++ a :: rest := heq.symm
    have hmapnd : ((done ++ a :: rest).map Arc.toLabel).Nodup := by
      rw [← hadone]
      exact H1
    rw [List.map_append, List.nodup_append] at hmapnd
    have hto : ∀ b ∈ done, b.toLabel ≠ a.toLabel := by
      intro b hb hbe
      exact hmapnd.2.2 (List.mem_map.mpr ⟨b, hb, rfl⟩) (by simp [hbe])
    have hmg : ∀ b ∈ done, b.fromLabel = a.fromLabel → resolvableB s0 b = true →
        resolvableB s0 a = true →
        normalize_concept (getE s0 (.loc b.toLabel)).concept ≠
        normalize_concept (getE s0 (.loc a.toLabel)).concept := by
      intro b hb hbf _ _
      have hbarcs : b ∈ arcs := by
        rw [hadone]
        exact List.mem_append_left _ hb
      have haarcs : a ∈ arcs := by
        rw [hadone]
        exact List.mem_append_right _ (by simp)
      have hne : b ≠ a := by
        intro he
        exact hto b hb (by rw [he])
      exact H2 b hbarcs a haarcs hbf hne
    have hstep := buildInv_step s0 done s a hinv hto hmg
    have h := ih (done ++ [a]) (processArc s a) (by rw [← heq]; simp) hstep
    simpa using h

theorem getE_level_upd_parent (t : Store) (r : NodeRef) (pv : Option NodeRef) (r' : NodeRef) :
    (getE (upd t r (fun c => { c with parent := pv })) r').level = (getE t r').level :=
  getE_upd_proj (fun x => x.level) t r (fun c => { c with parent := pv }) (fun _ => rfl) r'

theorem getE_level_upd_children (t : Store) (r : NodeRef) (cs : List NodeRef) (r' : NodeRef) :
    (getE (upd t r (fun c => { c with children := c.children ++ cs })) r').level =
      (getE t r').level :=
  getE_upd_proj (fun x => x.level) t r (fun c => { c with children := c.children ++ cs })
    (fun _ => rfl) r'

/-- In the append branch, the attached child's `level` ends up as the
parent's level at entry plus one (set at line 148 before the branch; the
later writes of the branch touch no `level` field). -/
theorem processArc_append_level (s : Store) (a : Arc) (pe ce : PElem)
    (hp : Store.get? s (.loc a.fromLabel) = some pe)
    (hc : Store.get? s (.loc a.toLabel) = some ce)
    (hnm : ∀ r ∈ pe.children,
      normalize_concept (getE s r).concept ≠ normalize_concept ce.concept) :
    (getE (processArc s a) (.loc a.toLabel)).level = pe.level + 1 := by
  rw [processArc_append s a pe ce hp hc hnm, getE_level_upd_parent,
    getE_level_upd_children, getE_eq, get?_upd_self s _ _ ce hc]
  rfl

/-! ## Claim C9: levels -/

/-- C9 (amended): the synthetic role root has level 0, but its children
(top-level elements, never any arc's child) keep their initial level 0
rather than 1; an element attached by an arc is assigned level = parent's
level at processing time + 1, as on `chainDoc` where `A` gets level 1 and
`B` level 2 while the top-level `T` stays at level 0. -/
theorem c9_levels :
    (∀ (s : Store) (a : Arc) (pe ce : PElem),
      Store.get? s (.loc a.fromLabel) = some pe →
      Store.get? s (.loc a.toLabel) = some ce →
      (∀ r ∈ pe.children,
        normalize_concept (getE s r).concept ≠ normalize_concept ce.concept) →
      (getE (processArc s a) (.loc a.toLabel)).level = pe.level + 1) ∧
    (getE chainSt (.root "r9")).level = 0 ∧
    (getE chainSt (.root "r9")).children = [.loc "T"] ∧
    (getE chainSt (.loc "T")).level = 0 ∧
    (getE chainSt (.loc "A")).level = 1 ∧
    (getE chainSt (.loc "B")).level = 2 :=
  ⟨processArc_append_level, by decide, by decide, by decide, by decide, by decide⟩

/-- C9 witness for the hypotheses of `c9_levels`. -/
theorem c9_witness :
    Store.get? stepSt (.loc stepArc.fromLabel) = some (mkPE "p" "s#p" "0" (some "P") none) ∧
    (getE (processArc stepSt stepArc) (.loc stepArc.toLabel)).level =
      (mkPE "p" "s#p" "0" (some "P") none).level + 1 :=
  ⟨by decide,
   c9_levels.1 stepSt stepArc (mkPE "p" "s#p" "0" (some "P") none)
     (mkPE "c" "s#c" "0" (some "C") none) (by decide) (by decide)
     (fun r hr => absurd hr (List.not_mem_nil r))⟩

theorem filter_norm_count (t : Store) (pref c1ref : NodeRef) (l : List NodeRef) (n : String)
    (hch : (getE t pref).children = l ++ [c1ref])
    (hl : ∀ r ∈ l, normalize_concept (getE t r).concept ≠ n)
    (hc1 : normalize_concept (getE t c1ref).concept = n) :
    ((getE t pref).children.filter
      (fun r => normalize_concept (getE t r).concept = n)).length = 1 := by
  rw [hch, List.filter_append]
  rw [List.filter_eq_nil_iff.mpr (by intro a ha; simpa using hl a ha)]
  simp [List.filter, hc1]

/-! ## Claim C1: merge of two same-concept arcs -/

/-- C1: processing, under a common parent `p`, an arc to `c1` (no existing
child of `p` sharing its normalized concept) followed by an arc to `c2`
whose concept normalizes the same, leaves exactly one child of `p` for that
normalized concept: the `c1` element, appended by the first arc, whose
children list is the first arc child's children followed by the second's,
whose label is the longer and concept the shorter of the two, and whose
preferred label is overwritten when the later arc supplies a truthy one. -/
theorem c1_merge_two_arcs
    (s : Store) (p c1 c2 o1 o2 : String) (pl1 pl2 : Option String)
    (pe e1 e2 : PElem)
    (hp : Store.get? s (.loc p) = some pe)
    (h1 : Store.get? s (.loc c1) = some e1)
    (h2 : Store.get? s (.loc c2) = some e2)
    (hpc1 : p ≠ c1) (hpc2 : p ≠ c2) (hc12 : c1 ≠ c2)
    (hnorm : normalize_concept e1.concept = normalize_concept e2.concept)
    (hnm : ∀ r ∈ pe.children,
      normalize_concept (getE s r).concept ≠ normalize_concept e1.concept) :
    (getE (processArc (processArc s ⟨p, c1, o1, pl1⟩) ⟨p, c2, o2, pl2⟩) (.loc p)).children
        = pe.children ++ [NodeRef.loc c1] ∧
    ((getE (processArc (processArc s ⟨p, c1, o1, pl1⟩) ⟨p, c2, o2, pl2⟩) (.loc p)).children.filter
        (fun r => normalize_concept
            (getE (processArc (processArc s ⟨p, c1, o1, pl1⟩) ⟨p, c2, o2, pl2⟩) r).concept
          = normalize_concept e1.concept)).length = 1 ∧
    getE (processArc (processArc s ⟨p, c1, o1, pl1⟩) ⟨p, c2, o2, pl2⟩) (.loc c1)
        = { label := if e1.label.length < e2.label.length then e2.label else e1.label,
            href := e1.href, order := o1,
            concept := if e2.concept.length < e1.concept.length then e2.concept else e1.concept,
            level := pe.level + 1,
            children := e1.children ++ e2.children,
            preferred_label := if truthyOpt pl2 then pl2 else pl1,
            parent := some (NodeRef.loc p) } := by
  have hP1 : NodeRef.loc p ≠ NodeRef.loc c1 := by simp [hpc1]
  have hP2 : NodeRef.loc p ≠ NodeRef.loc c2 := by simp [hpc2]
  have h12 : NodeRef.loc c1 ≠ NodeRef.loc c2 := by simp [hc12]
  have hnotin1 : NodeRef.loc c1 ∉ pe.children := by
    intro hmem
    exact hnm _ hmem (by rw [getE_eq, h1]; rfl)
  have hnotin2 : NodeRef.loc c2 ∉ pe.children := by
    intro hmem
    refine hnm _ hmem ?_
    rw [getE_eq, h2]
    exact hnorm.symm
  rw [processArc_append s ⟨p, c1, o1, pl1⟩ pe e1 hp h1 hnm]
  set sA := upd (upd (upd s (.loc c1) (fun c =>
      { c with order := o1, level := pe.level + 1, preferred_label := pl1 }))
    (.loc p) (fun q => { q with children := q.children ++ [NodeRef.loc c1] }))
    (.loc c1) (fun c => { c with parent := some (NodeRef.loc p) }) with hsA
  have hA_P : Store.get? sA (.loc p) =
      some { pe with children := pe.children ++ [NodeRef.loc c1] } := by
    rw [hsA, get?_upd_ne _ _ _ _ hP1]
    have i1 : Store.get? (upd s (.loc c1) (fun c =>
        { c with order := o1, level := pe.level + 1, preferred_label := pl1 })) (.loc p)
        = some pe := by
      rw [get?_upd_ne _ _ _ _ hP1]
      exact hp
    rw [get?_upd_self _ _ _ _ i1]
  have hA_1 : Store.get? sA (.loc c1) =
      some { e1 with order := o1, level := pe.level + 1, preferred_label := pl1,
                     parent := some (NodeRef.loc p) } := by
    rw [hsA]
    have i1 : Store.get? (upd s (.loc c1) (fun c =>
        { c with order := o1, level := pe.level + 1, preferred_label := pl1 })) (.loc c1)
        = some { e1 with order := o1, level := pe.level + 1, preferred_label := pl1 } :=
      get?_upd_self _ _ _ e1 h1
    have i2 : Store.get? (upd (upd s (.loc c1) (fun c =>
        { c with order := o1, level := pe.level + 1, preferred_label := pl1 }))
        (.loc p) (fun q => { q with children := q.children ++ [NodeRef.loc c1] })) (.loc c1)
        = some { e1 with order := o1, level := pe.level + 1, preferred_label := pl1 } := by
      rw [get?_upd_ne _ _ _ _ (Ne.symm hP1)]
      exact i1
    rw [get?_upd_self _ _ _ _ i2]
  have hA_2 : Store.get? sA (.loc c2) = some e2 := by
    rw [hsA, get?_upd_ne _ _ _ _ (Ne.symm h12), get?_upd_ne _ _ _ _ (Ne.symm hP2),
      get?_upd_ne _ _ _ _ (Ne.symm h12)]
    exact h2
  have hA_con : ∀ r, (getE sA r).concept = (getE s r).concept := by
    intro r
    rw [hsA]
    simp only [getE_upd_eq]
    split_ifs <;> rfl
  have hl1A : ∀ r ∈ pe.children,
      normalize_concept (getE sA r).concept ≠ normalize_concept e2.concept := by
    intro r hr
    rw [hA_con r, ← hnorm]
    exact hnm r hr
  have heA : normalize_concept (getE sA (.loc c1)).concept = normalize_concept e2.concept := by
    rw [show (getE sA (.loc c1)).concept = e1.concept by rw [getE_eq, hA_1]; rfl]
    exact hnorm
  rw [processArc_merge sA ⟨p, c2, o2, pl2⟩
      { pe with children := pe.children ++ [NodeRef.loc c1] } e2 (.loc c1)
      pe.children [] hA_P hA_2 hpc2 h12 rfl hl1A heA]
  refine ⟨?_, ?_, ?_⟩
  · rw [getE_eq, mergeInto_get?_ne _ _ _ _ _ _ _ _ hP2 hP1, hA_P]
    rfl
  · refine filter_norm_count _ (.loc p) (.loc c1) pe.children (normalize_concept e1.concept)
      ?_ ?_ ?_
    · rw [getE_eq, mergeInto_get?_ne _ _ _ _ _ _ _ _ hP2 hP1, hA_P]
      rfl
    · intro r hr
      have hrne1 : r ≠ NodeRef.loc c1 := fun h => hnotin1 (h ▸ hr)
      have hrne2 : r ≠ NodeRef.loc c2 := fun h => hnotin2 (h ▸ hr)
      rw [getE_eq, mergeInto_get?_ne _ _ _ _ _ _ _ _ hrne2 hrne1, ← getE_eq, hA_con r]
      exact hnm r hr
    · rw [getE_eq, mergeInto_get?_e _ _ _ _ _ _ _ _ h12 hA_1]
      simp only [Option.getD_some]
      split_ifs with hcc
      · exact hnorm.symm
      · rfl
  · rw [getE_eq, mergeInto_get?_e _ _ _ _ _ _ _ _ h12 hA_1]
    rfl

/-- C1 witness: on `mSt`, merging the arc to `c2` (concept `Foo_12`, children
`y`, `z`, preferred label `terse`) into the child `c1` (concept `Foo_1`,
child `x`) concatenates the children, keeps the longer label `c2long` and
the shorter concept `Foo_1`, and takes the later preferred label. -/
theorem c1_witness :
    normalize_concept "Foo_1" = normalize_concept "Foo_12" ∧
    getE (processArc (processArc mSt ⟨"p", "c1", "1", none⟩) ⟨"p", "c2", "2", some "terse"⟩)
        (.loc "c1")
      = { label := "c2long", href := "s#c1", order := "1", concept := "Foo_1", level := 1,
          children := [.loc "x", .loc "y", .loc "z"],
          preferred_label := some "terse", parent := some (NodeRef.loc "p") } := by
  refine ⟨by decide, ?_⟩
  have h := (c1_merge_two_arcs mSt "p" "c1" "c2" "1" "2" none (some "terse")
    (mkPE "p" "s#p" "0" (some "P") none)
    { mkPE "c1" "s#c1" "0" (some "Foo_1") none with children := [.loc "x"] }
    { mkPE "c2long" "s#c2" "0" (some "Foo_12") none with children := [.loc "y", .loc "z"] }
    (by decide) (by decide) (by decide)
    (by decide) (by decide) (by decide)
    (by decide)
    (fun r hr => absurd hr (List.not_mem_nil r))).2.2
  rw [h]
  decide

/-! ## Claim C4: node-type rule order -/

/-- C4 counterexample: the claim's example `"FooTableAbstract"` does not
classify as `Table` — it matches no Table pattern (suffix `Table` or
substring `statementtable`) and classifies as `Abstract`. -/
theorem c4_counterexample :
    node_type "FooTableAbstract" = "Abstract" ∧ node_type "FooTableAbstract" ≠ "Table" := by
  decide

/-- C4 (amended): `node_type` evaluates its rules in the fixed order
Statement, Table, LineItems, Axis, Member, Domain, Abstract, defaulting to
LineItem, witnessed on deliberately overlapping names for each adjacent pair
of rules; a concept matching both a Table pattern and an Abstract pattern
(such as `"MyStatementTableAbstract"`) classifies as Table, while the
claim's `"FooTableAbstract"` matches no Table pattern and is Abstract. -/
theorem c4_rule_order :
    node_type "http://ex.com/role/FooTable" = "Statement" ∧
    node_type "MyStatementTableAbstract" = "Table" ∧
    node_type "StatementLineItemsTable" = "Table" ∧
    node_type "[Axis]StatementLineItems" = "LineItems" ∧
    node_type "FooMemberAxis" = "Axis" ∧
    node_type "FooDomainMember" = "Member" ∧
    node_type "FooAbstractDomain" = "Domain" ∧
    node_type "FooAbstract" = "Abstract" ∧
    node_type "FooTableAbstract" = "Abstract" ∧
    node_type "Revenue" = "LineItem" := by
  decide

/-! ## Claim C5: normalization idempotence -/

/-- C5 counterexample: `normalize_concept` strips only one suffix group, so
it is not idempotent on `"Assets_1_2"` (one application gives `"Assets_1"`,
a second gives `"Assets"`). -/
theorem c5_counterexample :
    normalize_concept (normalize_concept "Assets_1_2") ≠ normalize_concept "Assets_1_2" := by
  decide

/-- C5 (amended): `normalize_concept` strips exactly one trailing
underscore-digits group; a string without such a trailing group is returned
unchanged, so a second application is the identity whenever the first
removed every trailing group; `normalize("Assets_1") = normalize("Assets_12")
= "Assets"`.  Idempotence fails only on stacked suffixes such as
`"Assets_1_2"`. -/
theorem c5_normalize :
    (∀ x : String, hasNumSuffix x = false → normalize_concept x = x) ∧
    (∀ x : String, hasNumSuffix (normalize_concept x) = false →
      normalize_concept (normalize_concept x) = normalize_concept x) ∧
    normalize_concept "Assets_1" = "Assets" ∧ normalize_concept "Assets_12" = "Assets" := by
  have hid : ∀ x : String, hasNumSuffix x = false → normalize_concept x = x := by
    intro x hx
    simp [normalize_concept, hx]
  exact ⟨hid, fun x hx => hid (normalize_concept x) hx, by decide, by decide⟩

/-- C5 witness for the hypotheses of `c5_normalize`. -/
theorem c5_witness :
    hasNumSuffix "Assets" = false ∧ normalize_concept "Assets" = "Assets" :=
  ⟨by decide, c5_normalize.1 "Assets" (by decide)⟩

/-! ## Claim C6: namespace fallback lookup -/

/-- C6 counterexample: with both a bare `"Assets"` key and a
`"us-gaap_Assets"` key present, the lookup returns the namespaced entry, not
the exact entry — the namespace loop runs before (not after) the exact
lookup for underscore-free concepts. -/
theorem c6_counterexample :
    AList.get? bothIdx "Assets" = some ["r1"] ∧
    (get_roles_containing_concept bothIdx "Assets").1 = ["r2"] ∧
    (get_roles_containing_concept bothIdx "Assets").1 ≠ ["r1"] := by
  decide

/-- C6 (amended): for a concept containing an underscore the lookup is the
exact `.get(concept, [])`; for an underscore-free concept the prefixes
`us-gaap`, `ifrs-full`, `dei` are tried first, in that order, the first
present namespaced key's entry being returned, and the exact lookup runs
only when no namespaced variant is present. -/
theorem c6_lookup_order :
    (∀ (idx : AList String (List String)) (c : String), containsUnderscore c = true →
      get_roles_containing_concept idx c = ((AList.get? idx c).getD [], idx)) ∧
    (∀ (idx : AList String (List String)) (c : String) (xs : List String),
      containsUnderscore c = false →
      AList.get? idx ("us-gaap_" ++ c) = some xs →
      (get_roles_containing_concept idx c).1 = xs) ∧
    (∀ (idx : AList String (List String)) (c : String) (xs : List String),
      containsUnderscore c = false →
      AList.get? idx ("us-gaap_" ++ c) = none →
      AList.get? idx ("ifrs-full_" ++ c) = some xs →
      (get_roles_containing_concept idx c).1 = xs) ∧
    (∀ (idx : AList String (List String)) (c : String) (xs : List String),
      containsUnderscore c = false →
      AList.get? idx ("us-gaap_" ++ c) = none →
      AList.get? idx ("ifrs-full_" ++ c) = none →
      AList.get? idx ("dei_" ++ c) = some xs →
      (get_roles_containing_concept idx c).1 = xs) ∧
    (∀ (idx : AList String (List String)) (c : String), containsUnderscore c = false →
      AList.get? idx ("us-gaap_" ++ c) = none →
      AList.get? idx ("ifrs-full_" ++ c) = none →
      AList.get? idx ("dei_" ++ c) = none →
      get_roles_containing_concept idx c = ((AList.get? idx c).getD [], idx)) := by
  refine ⟨?_, ?_, ?_, ?_, ?_⟩
  · intro idx c hc
    simp [get_roles_containing_concept, hc]
  · intro idx c xs hc h1
    simp only [get_roles_containing_concept, hc, Bool.false_eq_true, if_false]
    rw [List.find?_cons_of_pos _ (by simp [h1])]
    simp [ddGetItem, h1]
  · intro idx c xs hc h1 h2
    simp only [get_roles_containing_concept, hc, Bool.false_eq_true, if_false]
    rw [List.find?_cons_of_neg _ (by simp [h1]), List.find?_cons_of_pos _ (by simp [h2])]
    simp [ddGetItem, h2]
  · intro idx c xs hc h1 h2 h3
    simp only [get_roles_containing_concept, hc, Bool.false_eq_true, if_false]
    rw [List.find?_cons_of_neg _ (by simp [h1]), List.find?_cons_of_neg _ (by simp [h2]),
      List.find?_cons_of_pos _ (by simp [h3])]
    simp [ddGetItem, h3]
  · intro idx c hc h1 h2 h3
    simp only [get_roles_containing_concept, hc, Bool.false_eq_true, if_false]
    rw [List.find?_cons_of_neg _ (by simp [h1]), List.find?_cons_of_neg _ (by simp [h2]),
      List.find?_cons_of_neg _ (by simp [h3])]
    rfl

/-- C6 witness: the claim's own example through `c6_lookup_order` — with only
`"us-gaap_Assets"` indexed, looking up `"Assets"` returns its entry. -/
theorem c6_witness :
    containsUnderscore "Assets" = false ∧
    AList.get? nsOnlyIdx ("us-gaap_" ++ "Assets") = some ["rA"] ∧
    (get_roles_containing_concept nsOnlyIdx "Assets").1 = ["rA"] :=
  ⟨by decide, by decide, c6_lookup_order.2.1 nsOnlyIdx "Assets" ["rA"] (by decide) (by decide)⟩

/-! ## Claim C7: lookups on unknown roles -/

/-- C7: on an unknown role the `get_axes_for_role` method returns Python
`None` (there is no fallthrough return of `[]` in the source, contradicting
its own `List[PresentationElement]` annotation and docstring), while
`get_statement_line_items` returns `[]` and `get_role_by_standard_name`
returns `None` for an unknown standard name. -/
theorem c7_unknown_lookups :
    ∀ (p : XBRLPresentation) (role sn : String),
      AList.get? p.roles role = none →
      method_get_axes_for_role p role = none ∧
      get_statement_line_items p role = [] ∧
      (AList.get? p.standard_statement_map sn = none →
        get_role_by_standard_name p sn = none) := by
  intro p role sn h
  refine ⟨?_, ?_, ?_⟩
  · simp [method_get_axes_for_role, h]
  · simp [get_statement_line_items, h]
  · intro hsn
    simp [get_role_by_standard_name, hsn]

/-- C7 witness at the empty document. -/
theorem c7_witness :
    AList.get? (parsePresentation []).roles "missing" = none ∧
    method_get_axes_for_role (parsePresentation []) "missing" = none ∧
    get_statement_line_items (parsePresentation []) "missing" = [] :=
  ⟨by decide,
   (c7_unknown_lookups (parsePresentation []) "missing" "x" (by decide)).1,
   (c7_unknown_lookups (parsePresentation []) "missing" "x" (by decide)).2.1⟩

/-! ## Claim C8: skipped roles -/

/-- C8: a presentationLink whose every locator occurs as some arc's child
yields no top-level element and its role is not entered into `roles` — but
`skipped_roles` stays empty as well, because the source never appends to it;
conversely a role with a top-level element is entered into `roles`, and
`skipped_roles` is again empty. -/
theorem c8_skipped_roles_never_recorded :
    (parsePresentation [noTopDoc]).roles = [] ∧
    (parsePresentation [noTopDoc]).skipped_roles = [] ∧
    (parsePresentation [chainDoc]).roles.map Prod.fst = ["r9"] ∧
    (parsePresentation [chainDoc]).skipped_roles = [] := by
  decide

/-! ## Claim C10: queries do not mutate the aggregate -/

/-- C10: `get_roles_containing_concept` leaves the aggregate unchanged for
every concept: the namespaced `defaultdict` indexing is guarded by a
membership test, so no lookup path inserts a key.  The remaining queries
(`method_get_axes_for_role`, `get_statement_line_items`,
`get_role_by_standard_name`) are read-only functions of the aggregate in
this embedding, so the concept-index state is the only mutation surface. -/
theorem c10_queries_frame :
    ∀ (p : XBRLPresentation) (c : String),
      (method_get_roles_containing_concept p c).2 = p ∧
      (get_roles_containing_concept p.concept_index c).2 = p.concept_index := by
  have hidx : ∀ (idx : AList String (List String)) (c : String),
      (get_roles_containing_concept idx c).2 = idx := by
    intro idx c
    unfold get_roles_containing_concept
    by_cases hc : containsUnderscore c
    · simp [hc]
    · simp only [hc, Bool.false_eq_true, if_false]
      cases hfind : List.find? (fun ns => (AList.get? idx (ns ++ "_" ++ c)).isSome)
          ["us-gaap", "ifrs-full", "dei"] with
      | none => simp [hfind]
      | some ns =>
        have hp := List.find?_some hfind
        obtain ⟨xs, hxs⟩ := Option.isSome_iff_exists.mp hp
        simp [hfind, ddGetItem, hxs]
  intro p c
  refine ⟨?_, hidx p.concept_index c⟩
  unfold method_get_roles_containing_concept
  simp only [hidx p.concept_index c]

/-! ## Claim C9: levels -/

/-- C9 counterexample: in the parsed `chainDoc`, the top-level element `T`
is a child of the role root but has level `0`, not `1` — a top-level
locator is never an arc's child, so its level is never assigned. -/
theorem c9_counterexample :
    NodeRef.loc "T" ∈ (getE chainSt (.root "r9")).children ∧
    (getE chainSt (.loc "T")).level ≠ 1 := by
  decide

/-! ## Claim C3: duplicate normalized concepts among children -/

/-- C3 counterexample: in the parsed `dupDoc`, the merged node `C1` is in
the role's tree and its children `X1`, `X2` have equal normalized concepts
(`Z`), because the merge extends the children list without re-checking. -/
theorem c3_counterexample :
    Reach dupSt (.root "r3") (.loc "C1") ∧ ¬ noDupNormChildren dupSt (.loc "C1") := by
  constructor
  · have h1 : NodeRef.loc "P" ∈ (getE dupSt (.root "r3")).children := by decide
    have h2 : NodeRef.loc "C1" ∈ (getE dupSt (.loc "P")).children := by decide
    exact Reach.step (Reach.step Reach.base h1) h2
  · unfold noDupNormChildren
    decide

/-- C3 (amended): the append branch of the hierarchy step preserves the
no-duplicate-normalized-concepts property of every children list — an arc
child matching no existing child of its parent never creates a duplicate;
duplicates can arise only from the merge branch, which extends the matched
child's children unchecked (as `c3_counterexample` exhibits). -/
theorem c3_append_no_dup (s : Store) (a : Arc) (pe ce : PElem)
    (hp : Store.get? s (.loc a.fromLabel) = some pe)
    (hc : Store.get? s (.loc a.toLabel) = some ce)
    (hnm : ∀ r ∈ pe.children,
      normalize_concept (getE s r).concept ≠ normalize_concept ce.concept)
    (q : NodeRef) (hq : noDupNormChildren s q) :
    noDupNormChildren (processArc s a) q := by
  rw [processArc_append s a pe ce hp hc hnm]
  unfold noDupNormChildren at hq ⊢
  have h1 : (Store.get? s (.loc a.toLabel)).isSome = true := by simp [hc]
  have h2 : (Store.get? (upd s (.loc a.toLabel) (fun c =>
      { c with order := a.orderAttr, level := pe.level + 1,
               preferred_label := a.preferredLabel })) (.loc a.fromLabel)).isSome = true := by
    rw [get?_upd]
    split <;> simp [hp, hc]
  have h3 : (Store.get? (upd (upd s (.loc a.toLabel) (fun c =>
      { c with order := a.orderAttr, level := pe.level + 1,
               preferred_label := a.preferredLabel }))
      (.loc a.fromLabel)
      (fun p => { p with children := p.children ++ [NodeRef.loc a.toLabel] }))
      (.loc a.toLabel)).isSome = true := by
    rw [get?_upd]
    split <;> rw [get?_upd] <;> split <;> simp [hp, hc]
  have hcon : ∀ r, (getE (upd (upd (upd s (.loc a.toLabel) (fun c =>
      { c with order := a.orderAttr, level := pe.level + 1,
               preferred_label := a.preferredLabel }))
      (.loc a.fromLabel)
      (fun p => { p with children := p.children ++ [NodeRef.loc a.toLabel] }))
      (.loc a.toLabel) (fun c => { c with parent := some (NodeRef.loc a.fromLabel) })) r).concept
      = (getE s r).concept := by
    intro r
    simp only [getE_upd_eq]
    split_ifs <;> rfl
  have hch : (getE (upd (upd (upd s (.loc a.toLabel) (fun c =>
      { c with order := a.orderAttr, level := pe.level + 1,
               preferred_label := a.preferredLabel }))
      (.loc a.fromLabel)
      (fun p => { p with children := p.children ++ [NodeRef.loc a.toLabel] }))
      (.loc a.toLabel) (fun c => { c with parent := some (NodeRef.loc a.fromLabel) })) q).children
      = (if q = .loc a.fromLabel then (getE s q).children ++ [NodeRef.loc a.toLabel]
         else (getE s q).children) := by
    by_cases hf : q = .loc a.fromLabel <;> by_cases ht : q = .loc a.toLabel <;>
      simp only [getE_upd_eq, h1, h2, h3, hf, ht] <;> simp_all
  rw [hch]
  have hmapeq : ∀ (l : List NodeRef),
      l.map (fun r => normalize_concept ((getE (upd (upd (upd s (.loc a.toLabel) (fun c =>
        { c with order := a.orderAttr, level := pe.level + 1,
                 preferred_label := a.preferredLabel }))
        (.loc a.fromLabel)
        (fun p => { p with children := p.children ++ [NodeRef.loc a.toLabel] }))
        (.loc a.toLabel) (fun c => { c with parent := some (NodeRef.loc a.fromLabel) })) r).concept))
      = l.map (fun r => normalize_concept ((getE s r).concept)) := by
    intro l
    exact List.map_congr_left (fun r _ => by rw [hcon r])
  by_cases hf : q = .loc a.fromLabel
  · rw [if_pos hf, hmapeq, List.map_append]
    have hq' : (getE s q).children = pe.children := by
      rw [hf, getE_eq, hp]
      rfl
    rw [hq']
    rw [List.nodup_append]
    refine ⟨?_, by simp, ?_⟩
    · rw [hq'] at hq
      exact hq
    · intro x hx hx2
      simp only [List.map_cons, List.map_nil, List.mem_singleton] at hx2
      simp only [List.mem_map] at hx
      obtain ⟨r, hr, hrx⟩ := hx
      apply hnm r hr
      rw [hrx, hx2]
      simp [getE_eq, hc]
  · rw [if_neg hf, hmapeq]
    exact hq

/-! ## Claim C2: tree well-formedness -/

/-- C2 counterexample: in the parsed `mergeDoc`, element `Y` is reachable
from the role root via children links (root → P → C1 → Y), but its parent
chain stops at the merged-away element `C2` (whose `parent` is `None`), so
it never reaches the role root. -/
theorem c2_counterexample :
    Reach mergeSt (.root "r") (.loc "Y") ∧
    ¬ (∃ k, parentIter mergeSt k (.loc "Y") = NodeRef.root "r") := by
  constructor
  · have h1 : NodeRef.loc "P" ∈ (getE mergeSt (.root "r")).children := by decide
    have h2 : NodeRef.loc "C1" ∈ (getE mergeSt (.loc "P")).children := by decide
    have h3 : NodeRef.loc "Y" ∈ (getE mergeSt (.loc "C1")).children := by decide
    exact Reach.step (Reach.step (Reach.step Reach.base h1) h2) h3
  · rintro ⟨k, hk⟩
    have hC2p : (getE mergeSt (.loc "C2")).parent = none := by decide
    have hYp : (getE mergeSt (.loc "Y")).parent = some (NodeRef.loc "C2") := by decide
    have hC2 : ∀ m, parentIter mergeSt m (.loc "C2") = NodeRef.loc "C2" := by
      intro m
      cases m with
      | zero => rfl
      | succ m => simp only [parentIter, hC2p]
    cases k with
    | zero => exact absurd hk (by decide)
    | succ k =>
      rw [show parentIter mergeSt (k + 1) (.loc "Y") = parentIter mergeSt k (.loc "C2") by
        simp only [parentIter, hYp], hC2 k] at hk
      exact absurd hk (by decide)

/-- C2 (amended): for documents whose arcs have pairwise-distinct child
labels and in which no two arcs sharing a parent label have child concepts
with equal normalizations (so the merge branch never fires), every parsed
role is a well-formed tree: the synthetic root's parent is `None`, every
element reachable from the root through children links reaches the root by
following `parent` links, and every reachable non-root element lies in the
children list of exactly one node. -/
theorem c2_tree_wellformed (role : String) (locs : List Loc) (arcs : List Arc) (st : Store)
    (H1 : (arcs.map Arc.toLabel).Nodup)
    (H2 : ∀ a ∈ arcs, ∀ b ∈ arcs, a.fromLabel = b.fromLabel → a ≠ b →
      normalize_concept (getE (initStore locs arcs) (.loc a.toLabel)).concept ≠
      normalize_concept (getE (initStore locs arcs) (.loc b.toLabel)).concept)
    (hp : parseRole role locs arcs = some st) :
    (getE st (.root role)).parent = none ∧
    ∀ r, Reach st (.root role) r →
      (∃ k, parentIter st k r = NodeRef.root role) ∧
      (r ≠ NodeRef.root role → ∃! q, r ∈ (getE st q).children) := by
  have hw : WFInit (initStore locs arcs) := wf_initStore locs arcs
  have hinv : BuildInv (initStore locs arcs) arcs
      (arcs.foldl processArc (initStore locs arcs)) :=
    buildInv_fold _ hw arcs H1 H2
  unfold parseRole at hp
  set s0 := initStore locs arcs with hs0
  set S := arcs.foldl processArc s0 with hS
  set rc := roleChildrenOf S arcs with hrcdef
  by_cases hempty : rc.isEmpty = true
  · rw [if_pos hempty] at hp
    exact absurd hp (by simp)
  · rw [if_neg hempty] at hp
    have hst : st = Store.set (rc.foldl (fun s r =>
        upd s r (fun e => { e with parent := some (NodeRef.root role) })) S) (.root role)
        { mkPE role "" "0" (some (normalize_concept role)) none with children := rc } :=
      (Option.some.inj hp).symm
    have hkeysS : S.map Prod.fst = s0.map Prod.fst := hinv.keys_eq
    have hndS : (S.map Prod.fst).Nodup := by
      rw [hkeysS]
      exact hw.nodup
    have hlockey : ∀ r, (Store.get? S r).isSome = true → ∃ l, r = NodeRef.loc l := by
      intro r hh
      rw [isSome_congr_keys s0 S hkeysS] at hh
      obtain ⟨e, he⟩ := Option.isSome_iff_exists.mp hh
      obtain ⟨⟨l, hle, _⟩, _, _⟩ := hw.keyed _ e he
      exact ⟨l, hle⟩
    have hrootS : ∀ ρ, Store.get? S (.root ρ) = none := by
      intro ρ
      apply Option.not_isSome_iff_eq_none.mp
      intro hh
      obtain ⟨l, hle⟩ := hlockey _ hh
      cases hle
    have hlabelS : ∀ l e, Store.get? S (.loc l) = some e → e.label = l := by
      intro l e he
      have h := hinv.label_eq (.loc l)
      rw [getE_eq, he] at h
      have hsome0 : (Store.get? s0 (.loc l)).isSome = true := by
        rw [← isSome_congr_keys s0 S hkeysS]
        simp [he]
      obtain ⟨e0, he0⟩ := Option.isSome_iff_exists.mp hsome0
      obtain ⟨⟨lx, hlx, hlab⟩, _, _⟩ := hw.keyed _ e0 he0
      rw [getE_eq, he0] at h
      simp only [Option.getD_some] at h
      have hleq : lx = l := by
        cases hlx
        rfl
      rw [h, hlab]
      exact hleq
    have hrc_allloc : ∀ r ∈ rc, ∃ l, r = NodeRef.loc l := by
      intro r hr
      obtain ⟨p, hpS, hp1, _⟩ := (mem_roleChildren S arcs r).mp hr
      refine hlockey r ?_
      rw [get?_isSome_iff_mem]
      rw [← hp1]
      exact List.mem_map.mpr ⟨p, hpS, rfl⟩
    have hrc_notarc : ∀ l, NodeRef.loc l ∈ rc → ∀ b ∈ arcs, b.toLabel ≠ l := by
      intro l hmem b hb hbe
      obtain ⟨p, hpS, hp1, hany⟩ := (mem_roleChildren S arcs (.loc l)).mp hmem
      have hget := get?_eq_of_mem_nodup S hndS p hpS
      rw [hp1] at hget
      have hlab := hlabelS l p.2 hget
      rw [List.any_eq_false] at hany
      exact hany b hb (by rw [hlab]; exact decide_eq_true hbe)
    have harc_notrc : ∀ b ∈ arcs, NodeRef.loc b.toLabel ∉ rc := by
      intro b hb hmem
      exact hrc_notarc b.toLabel hmem b hb rfl
    have hst_root : Store.get? st (.root role) =
        some { mkPE role "" "0" (some (normalize_concept role)) none with children := rc } := by
      rw [hst]
      show AList.get? (AList.set _ _ _) _ = _
      rw [AList.get?_set, if_pos rfl]
    have hst_loc : ∀ l, Store.get? st (.loc l) =
        (if NodeRef.loc l ∈ rc then
          (Store.get? S (.loc l)).map (fun e => { e with parent := some (NodeRef.root role) })
         else Store.get? S (.loc l)) := by
      intro l
      rw [hst]
      have hne : (NodeRef.root role : NodeRef) ≠ NodeRef.loc l := by simp
      show AList.get? (AList.set _ _ _) _ = _
      rw [AList.get?_set, if_neg hne]
      exact get?_foldl_setParent S rc (NodeRef.root role) (.loc l)
    have hst_rootother : ∀ ρ, ρ ≠ role → Store.get? st (.root ρ) = none := by
      intro ρ hρ
      rw [hst]
      have hne : (NodeRef.root role : NodeRef) ≠ NodeRef.root ρ := by simp [Ne.symm hρ]
      show AList.get? (AList.set _ _ _) _ = _
      rw [AList.get?_set, if_neg hne]
      rw [← Store.get?_eq, get?_foldl_setParent S rc (NodeRef.root role) (.root ρ)]
      have hnotrc : (NodeRef.root ρ : NodeRef) ∉ rc := by
        intro hmem
        obtain ⟨l, hl⟩ := hrc_allloc _ hmem
        cases hl
      rw [if_neg hnotrc]
      exact hrootS ρ
    have hchA : ∀ q r, r ∈ (getE st q).children →
        (q = NodeRef.root role ∧ r ∈ rc) ∨
        (∃ b ∈ arcs, resolvableB s0 b = true ∧
          q = NodeRef.loc b.fromLabel ∧ r = NodeRef.loc b.toLabel) := by
      intro q r hmem
      match q with
      | NodeRef.root ρ =>
        by_cases hρ : ρ = role
        · subst hρ
          left
          refine ⟨rfl, ?_⟩
          rw [getE_eq, hst_root] at hmem
          exact hmem
        · rw [getE_eq, hst_rootother ρ hρ] at hmem
          cases hmem
      | NodeRef.loc l =>
        right
        have hch : (getE st (.loc l)).children = (getE S (.loc l)).children := by
          rw [getE_eq, getE_eq, hst_loc l]
          split
          · cases hx : Store.get? S (.loc l) <;> simp [hx]
          · rfl
        rw [hch, hinv.children_eq l, List.mem_map] at hmem
        obtain ⟨b, hbf, rfl⟩ := hmem
        rw [List.mem_filter] at hbf
        obtain ⟨hbdone, hcond⟩ := hbf
        rw [Bool.and_eq_true] at hcond
        refine ⟨b, hbdone, hcond.2, ?_, rfl⟩
        rw [of_decide_eq_true hcond.1]
    have hstparent_rc : ∀ r ∈ rc, (getE st r).parent = some (NodeRef.root role) := by
      intro r hr
      obtain ⟨l, rfl⟩ := hrc_allloc r hr
      rw [getE_eq, hst_loc l, if_pos hr]
      have hsomeS : (Store.get? S (.loc l)).isSome = true := by
        obtain ⟨p, hpS, hp1, _⟩ := (mem_roleChildren S arcs (.loc l)).mp hr
        rw [get?_isSome_iff_mem, ← hp1]
        exact List.mem_map.mpr ⟨p, hpS, rfl⟩
      obtain ⟨e, he⟩ := Option.isSome_iff_exists.mp hsomeS
      rw [he]
      rfl
    have hstparent_arc : ∀ b ∈ arcs, resolvableB s0 b = true →
        (getE st (.loc b.toLabel)).parent = some (NodeRef.loc b.fromLabel) := by
      intro b hb hbres
      rw [getE_eq, hst_loc b.toLabel, if_neg (harc_notrc b hb), ← getE_eq]
      exact hinv.parent_arc b hb hbres
    refine ⟨by rw [getE_eq, hst_root]; rfl, ?_⟩
    intro r hr
    induction hr with
    | base => exact ⟨⟨0, rfl⟩, fun hne => absurd rfl hne⟩
    | step hq hmem ih =>
      rename_i q' r'
      obtain ⟨⟨k, hk⟩, _⟩ := ih
      rcases hchA _ _ hmem with ⟨rfl, hrc2⟩ | ⟨b, hbarcs, hbres, rfl, rfl⟩
      · have hpar := hstparent_rc _ hrc2
        refine ⟨⟨1, ?_⟩, ?_⟩
        · simp only [parentIter, hpar]
        · intro _
          refine ⟨NodeRef.root role, hmem, ?_⟩
          intro q2 hq2
          rcases hchA q2 _ hq2 with ⟨rfl, _⟩ | ⟨b, hbarcs, hbres, rfl, rfl⟩
          · rfl
          · exact absurd hrc2 (harc_notrc b hbarcs)
      · have hpar := hstparent_arc b hbarcs hbres
        refine ⟨⟨k + 1, ?_⟩, ?_⟩
        · simp only [parentIter, hpar]
          exact hk
        · intro _
          refine ⟨NodeRef.loc b.fromLabel, hmem, ?_⟩
          intro q2 hq2
          rcases hchA q2 _ hq2 with ⟨rfl, hrc2⟩ | ⟨b2, hb2arcs, hb2res, hq2eq, hteq⟩
          · exact absurd hrc2 (harc_notrc b hbarcs)
          · have hbb : b2 = b := by
              refine List.inj_on_of_nodup_map H1 hb2arcs hbarcs ?_
              have := hteq
              simp only [NodeRef.loc.injEq] at this
              exact this.symm
            rw [hq2eq, hbb]

/-- C2 witness: the two-locator document `A → B` satisfies the hypotheses of
`c2_tree_wellformed`, and the reachable element `B` walks back to the role
root. -/
theorem c2_witness :
    (getE wfSt (.root "rw")).parent = none ∧
    Reach wfSt (.root "rw") (.loc "B") ∧
    (∃ k, parentIter wfSt k (.loc "B") = NodeRef.root "rw") := by
  have h := c2_tree_wellformed "rw" wfLocs wfArcs wfSt (by decide) (by decide) (by decide)
  have h1 : NodeRef.loc "A" ∈ (getE wfSt (.root "rw")).children := by decide
  have h2 : NodeRef.loc "B" ∈ (getE wfSt (.loc "A")).children := by decide
  have hreach : Reach wfSt (.root "rw") (.loc "B") :=
    Reach.step (Reach.step Reach.base h1) h2
  exact ⟨h.1, hreach, (h.2 _ hreach).1⟩

/-- C3 witness for the hypotheses of `c3_append_no_dup`. -/
theorem c3_witness :
    Store.get? stepSt (.loc stepArc.fromLabel) = some (mkPE "p" "s#p" "0" (some "P") none) ∧
    noDupNormChildren stepSt (.loc "p") ∧
    noDupNormChildren (processArc stepSt stepArc) (.loc "p") :=
  ⟨by decide, by unfold noDupNormChildren; decide,
   c3_append_no_dup stepSt stepArc (mkPE "p" "s#p" "0" (some "P") none)
     (mkPE "c" "s#c" "0" (some "C") none) (by decide) (by decide)
     (fun r hr => absurd hr (List.not_mem_nil r)) (.loc "p")
     (by unfold noDupNormChildren; decide)⟩

end EdgarXBRL
